import Mathlib

/-!
# Verification of the claspy STR-profile matching core

Shallow embedding of the claspy sources (`markers.py`, `str_profile.py`,
`db.py`, `result.py`) and proofs about the frozen claims.  Python dicts are
modelled as insertion-ordered association lists, Python sets as `Finset`,
Python floats as `ℚ` (exact for the divisions of small integers that occur
here, and for every equality or bound asserted below), and fallible code as
`Except ClaspyError`.
-/

deriving instance DecidableEq for Except

namespace Claspy

/-- Errors raised by the embedded code.  Python raises `ValueError`,
`KeyError`, `TypeError` or `AssertionError` carrying formatted messages; here
each carries the structured data the message is formatted from. -/
inductive ClaspyError where
  | invalidMarkers (names : List String)
  | mixedSpecies (species : List String)
  | unsupportedAlgorithm (a : String)
  | unsupportedMode (m : String)
  | keyError (info : String)
  | typeError (info : String)
  | valueError (info : String)
  | assertionError (info : String)
deriving DecidableEq, Repr

/-- Python dict assignment `d[k] = v`: replace the value in place if the key
is present, else append the new binding at the end. -/
def dictInsert {α β : Type} [DecidableEq α] (k : α) (v : β) :
    List (α × β) → List (α × β)
  | [] => [(k, v)]
  | (k', v') :: rest =>
    if k' = k then (k, v) :: rest else (k', v') :: dictInsert k v rest

/-! ### String comparison

Python compares strings lexicographically by code point, which coincides
with Lean's `String` linear order.  The library's decision procedure for
`String` order goes through `String.ltb`, which the kernel cannot reduce;
these high-priority instances decide the same order through the character
lists, so concrete comparisons evaluate. -/

instance (priority := 2000) decLtString : DecidableRel (fun a b : String => a < b) :=
  fun a b => decidable_of_iff (a.toList < b.toList) String.lt_iff_toList_lt.symm

instance (priority := 2000) decLeString : DecidableRel (fun a b : String => a ≤ b) :=
  fun a b => decidable_of_iff (¬ b.toList < a.toList)
    ((not_congr String.lt_iff_toList_lt).symm.trans not_lt)

/-! ## Marker registry (`markers.py`) -/

/-- `valid_names` table from `markers.py`, human (9606) entries,
duplicates included exactly as in the source. -/
def humanMarkers : List String :=
  ["Amelogenin", "CSF1PO", "D10S1248", "D12S391", "D13S317", "D16S539",
   "D17S1301", "D18S51", "D19S433", "D1S1656", "D20S482", "D21S11",
   "D22S1045", "D2S1338", "D2S441", "D3S1358", "D4S2408", "D5S818",
   "D6S1043", "D7S820", "D8S1179", "D9S1122", "DXS10074", "DXS101",
   "DXS10103", "DXS10135", "DXS7132", "DXS7423", "DXS8378", "DYF387S1",
   "DYS19", "DYS385a-b", "DYS389I", "DYS389II", "DYS390", "DYS391",
   "DYS391", "DYS392", "DYS437", "DYS438", "DYS439", "DYS448", "DYS460",
   "DYS481", "DYS505", "DYS522", "DYS533", "DYS549", "DYS570", "DYS570",
   "DYS576", "DYS576", "DYS612", "DYS635", "DYS643", "F13A01", "F13B",
   "FESFPS", "FGA", "HPRTB", "LPL", "Penta C", "Penta D", "Penta E",
   "SE33", "TH01", "TPOX", "Y-GATA-H4", "vWA"]

/-- `valid_names` table, mouse (10090) entries. -/
def mouseMarkers : List String :=
  ["Mouse STR 1-1", "Mouse STR 1-2", "Mouse STR 2-1", "Mouse STR 3-2",
   "Mouse STR 4-2", "Mouse STR 5-5", "Mouse STR 6-4", "Mouse STR 6-7",
   "Mouse STR 7-1", "Mouse STR 8-1", "Mouse STR 9-2", "Mouse STR 11-2",
   "Mouse STR 12-1", "Mouse STR 13-1", "Mouse STR 15-3", "Mouse STR 17-2",
   "Mouse STR 18-3", "Mouse STR 19-2", "Mouse STR X-1"]

/-- `valid_names` table, dog (9615) entries. -/
def dogMarkers : List String :=
  ["Dog FHC2010", "Dog FHC2054", "Dog FHC2079", "Dog PEZ1", "Dog PEZ3",
   "Dog PEZ5", "Dog PEZ6", "Dog PEZ8", "Dog PEZ12", "Dog PEZ20"]

/-- The `valid_names` dict of `markers.py`: species taxid to canonical
marker names, in the source's insertion order. -/
def valid_names : List (ℕ × List String) :=
  [(9606, humanMarkers), (10090, mouseMarkers), (9615, dogMarkers)]

/-- The `species_by_taxid` dict of `markers.py`. -/
def species_by_taxid : List (ℕ × String) :=
  [(9606, "human"), (10090, "mouse"), (9615, "dog")]

/-- ASCII lower-casing of a character; the registry names are ASCII, so this
agrees with Python `str.lower` on every string the registry can match. -/
def lowerChar (c : Char) : Char :=
  if 'A' ≤ c ∧ c ≤ 'Z' then Char.ofNat (c.toNat + 32) else c

/-- `name.replace(" ", "").lower()` as performed by `standardize_name`. -/
def normalize (s : String) : String :=
  String.mk ((s.toList.filter (fun c => c ≠ ' ')).map lowerChar)

/-- Scan of the registry performed by `standardize_name`: first species list
entry whose normalized form equals the normalized candidate. -/
def findCanon (cand : String) : List (ℕ × List String) → Option (String × ℕ)
  | [] => none
  | (taxid, names) :: rest =>
    match names.find? (fun sn => normalize sn == cand) with
    | some sn => some (sn, taxid)
    | none => findCanon cand rest

/-- `standardize_name` from `markers.py`. -/
def standardize_name (name : String) : Option String × Option ℕ :=
  match findCanon (normalize name) valid_names with
  | some (c, t) => (some c, some t)
  | none => (none, none)

/-- `sorted(...)` on a list of strings (Python sorts strings by code point,
which is the `String` linear order). -/
def sortStrings (l : List String) : List String :=
  List.insertionSort (fun a b => a ≤ b) l

/-- Species name for a taxid, `species_by_taxid[taxid]`; total with a dummy
default, only ever applied to taxids produced by the registry. -/
def speciesOf (t : ℕ) : String := (species_by_taxid.lookup t).getD ""

/-- The `valid` dict built by `validate_names`: raw name to standardized
name (or `none`), first-occurrence order. -/
def validDict (names : List String) : List (String × Option String) :=
  names.foldl (fun acc n => dictInsert n (standardize_name n).1 acc) []

/-- `validate_names` from `markers.py`.  The `taxids` set is modelled as the
deduplicated list of resolved taxids; the set is only read through
membership, cardinality, an order-insensitive sorted rendering, and
`pop()` on a set known to have at most one element, so the representation is
faithful.  `taxids.pop()` on an empty set raises `KeyError`. -/
def validate_names (names : List String) :
    Except ClaspyError (List (String × Option String) × ℕ) :=
  let valid := validDict names
  let taxids := (names.map (fun n => (standardize_name n).2)).dedup
  if none ∈ taxids then
    .error (.invalidMarkers ((valid.filter (fun p => p.2 = none)).map Prod.fst))
  else if 1 < taxids.length then
    .error (.mixedSpecies (sortStrings (taxids.filterMap (fun o => o.map speciesOf))))
  else
    match taxids with
    | [some t] => .ok (valid, t)
    | _ => .error (.keyError "pop from an empty set")

/-! ## Allele strings (`str_profile.py`) -/

/-- Python `str.split(sep)` for a single-character separator, on the
character list of the string.  Always returns at least one piece. -/
def splitChar (c : Char) : List Char → List (List Char)
  | [] => [[]]
  | x :: xs =>
    let r := splitChar c xs
    if x = c then [] :: r else (x :: r.headD []) :: r.tail

/-- Python `sep.join` for a single-character separator. -/
def joinChar (c : Char) : List (List Char) → List Char
  | [] => []
  | [p] => p
  | p :: ps => p ++ c :: joinChar c ps

/-- `Profile.parse_allele_string`: remove spaces, split on commas, collect
the pieces into a set. -/
def parse_allele_string (s : String) : Finset String :=
  ((splitChar ',' (s.toList.filter (fun c => c ≠ ' '))).map
    (fun cs => String.mk cs)).toFinset

/-- Iterating a Python set of strings in sorted order; the only orders in
which the code ever consumes an allele set are sorted ones.  Defined by
lifting insertion sort to the underlying multiset (well defined because
permutations have equal sorted forms). -/
def sortedAlleles (s : Finset String) : List String :=
  Quotient.lift (fun l => List.insertionSort (fun a b => a ≤ b) l)
    (fun l₁ l₂ h =>
      List.eq_of_perm_of_sorted
        (((List.perm_insertionSort _ l₁).trans h).trans
          (List.perm_insertionSort _ l₂).symm)
        (List.sorted_insertionSort _ l₁) (List.sorted_insertionSort _ l₂))
    s.val

/-- `",".join` on a list of allele tokens. -/
def joinAlleles (l : List String) : String :=
  String.mk (joinChar ',' (l.map String.toList))

/-! ## Profiles (`str_profile.py`) -/

/-- The metadata dict of a profile, restricted to the keys the embedded
operations read (`sample`, `identifier`, `accession`, `source`). -/
structure Meta where
  sample : String
  identifier : String
  accession : String
  source : String
deriving DecidableEq, Repr

/-- An STR profile: the `_alleles` dict (canonical marker name to allele
set, insertion-ordered), the resolved `taxid`, and the metadata. -/
structure Profile where
  alleles : List (String × Finset String)
  taxid : ℕ
  meta : Meta
deriving DecidableEq

/-- `valid_names[marker]` lookup performed in `Profile.__init__`; total with
a dummy default, only applied after validation succeeded. -/
def canonicalOf (valid : List (String × Option String)) (m : String) : String :=
  ((valid.lookup m).getD none).getD ""

/-- `Profile.__init__`: validate the marker names, then build the allele
dict keyed by canonical names. -/
def mkProfile (alleles : List (String × String)) (meta : Meta) :
    Except ClaspyError Profile :=
  match validate_names (alleles.map Prod.fst) with
  | .error e => .error e
  | .ok (valid, taxid) =>
    .ok ⟨alleles.foldl
          (fun acc ma => dictInsert (canonicalOf valid ma.1) (parse_allele_string ma.2) acc)
          [],
        taxid, meta⟩

/-- `Profile.markers`: the set of marker names of the profile. -/
def Profile.markers (p : Profile) : Finset String :=
  (p.alleles.map Prod.fst).toFinset

/-- All `(marker, allele)` pairs of a profile (what `Profile.__iter__`
enumerates). -/
def Profile.pairs (p : Profile) : Finset (String × String) :=
  p.alleles.foldr (fun ma acc => ma.2.image (fun a => (ma.1, a)) ∪ acc) ∅

/-- `Profile.alleles(markers=...)`: the `(marker, allele)` pairs restricted
to a marker set. -/
def Profile.allelesAt (p : Profile) (markers : Finset String) :
    Finset (String × String) :=
  p.pairs.filter (fun pa => pa.1 ∈ markers)

/-- `Profile.allele_dict`: marker to comma-joined sorted allele string. -/
def Profile.allele_dict (p : Profile) : List (String × String) :=
  p.alleles.map (fun ma => (ma.1, joinAlleles (sortedAlleles ma.2)))

/-- `Profile.slug`: `(identifier, accession, source)`. -/
def Profile.slug (p : Profile) : String × String × String :=
  (p.meta.identifier, p.meta.accession, p.meta.source)

/-! ## Scoring (`str_profile.py`) -/

/-- `Profile.markers_for_scoring`: marker set per mode, with Amelogenin
removed unless `amel` is set.  The Python function returns a set or a list;
it is only ever consumed through membership tests. -/
def markers_for_scoring (query reference : Profile) (mode : String) (amel : Bool) :
    Finset String :=
  let ms := if mode = "intersect" then query.markers ∩ reference.markers
            else if mode = "query" then query.markers
            else reference.markers
  if amel then ms else ms.filter (fun m => m ≠ "Amelogenin")

/-- The three local counts of `Profile.score`:
`(query_alleles, refr_alleles, shared_alleles)`. -/
def scoreVals (query reference : Profile) (mode : String) (amel : Bool) :
    ℕ × ℕ × ℕ :=
  let markers := markers_for_scoring query reference mode amel
  ((query.allelesAt markers).card,
   (reference.allelesAt markers).card,
   (query.allelesAt markers ∩ reference.allelesAt markers).card)

/-- `Profile.score`.  Division of the integer counts is exact in `ℚ`; the
asserted equalities and bounds are unaffected by IEEE rounding because each
is witnessed by identical numerator/denominator pairs or by monotone bounds
preserved by rounding. -/
def Profile.score (query reference : Profile) (algorithm mode : String)
    (amel : Bool) : Except ClaspyError (ℚ × ℕ) :=
  if ¬ (algorithm = "Tanabe" ∨ algorithm = "query" ∨ algorithm = "reference") then
    .error (.unsupportedAlgorithm algorithm)
  else if ¬ (mode = "intersect" ∨ mode = "query" ∨ mode = "reference") then
    .error (.unsupportedMode mode)
  else
    let v := scoreVals query reference mode amel
    let s : ℚ :=
      if 0 < v.2.2 then
        if algorithm = "Tanabe" then (2 * v.2.2 : ℚ) / ((v.1 : ℚ) + (v.2.1 : ℚ))
        else if algorithm = "query" then (v.2.2 : ℚ) / (v.1 : ℚ)
        else (v.2.2 : ℚ) / (v.2.1 : ℚ)
      else 0
    .ok (s, v.2.2)

/-! ## Allele rendering (`Profile.allele_transform` / `Profile.allele_repr`)

`allele_transform` returns a Python `int`, `float` or `str`; `allele_repr`
then calls Python's `sorted`, which compares the values pairwise with `<`
and raises `TypeError` on any `int`/`float`-versus-`str` comparison.  Floats
are modelled as exact rationals: the decimal alleles that occur are short
enough that IEEE doubles preserve their ordering, equalities and shortest
decimal rendering. -/

/-- A Python value produced by `Profile.allele_transform`. -/
inductive PyVal where
  | intv (n : ℤ)
  | floatv (q : ℚ)
  | strv (s : String)
deriving DecidableEq, Repr

/-- Whether a transformed allele is numeric (`int` or `float`). -/
def PyVal.isNum : PyVal → Bool
  | .intv _ => true
  | .floatv _ => true
  | .strv _ => false

/-- Numeric value of an `int`/`float` Python value (0 for strings). -/
def PyVal.val : PyVal → ℚ
  | .intv n => (n : ℚ)
  | .floatv q => q
  | .strv _ => 0

/-- Value of a digit list, most significant first. -/
def digitsToNat (l : List Char) : ℕ :=
  l.foldl (fun a c => a * 10 + (c.toNat - 48)) 0

/-- Python `float(s)` on the space-free allele tokens that can reach it:
an optional integer part, one dot, an optional fractional part, at least
one digit in total; anything else raises `ValueError`.  The value
`ip + fp / 10 ^ k` is built with `Rat.divInt` over a common denominator. -/
def parseDec (s : String) : Option ℚ :=
  match splitChar '.' s.toList with
  | [ip, fp] =>
    if (ip ++ fp).all Char.isDigit ∧ ip ++ fp ≠ [] then
      some (Rat.divInt (digitsToNat ip * 10 ^ fp.length + digitsToNat fp : ℤ)
            ((10 : ℤ) ^ fp.length))
    else none
  | _ => none

/-- `Profile.allele_transform`. -/
def allele_transform (allele : String) : Except ClaspyError PyVal :=
  if '.' ∈ allele.toList then
    match parseDec allele with
    | some q => .ok (.floatv q)
    | none => .error (.valueError ("could not convert string to float: " ++ allele))
  else if allele.toList ≠ [] ∧ allele.toList.all Char.isDigit then
    .ok (.intv (digitsToNat allele.toList))
  else if allele = "X" ∨ allele = "Y" then
    .ok (.strv allele)
  else
    .error (.valueError ("unexpected allele " ++ allele))

/-- One comparison `a < b` as Python performs it inside `sorted`:
numeric values compare numerically, strings lexicographically, and any
cross-kind comparison raises `TypeError`. -/
def pyLtVal : PyVal → PyVal → Except ClaspyError Bool
  | .intv a, .intv b => .ok (decide (a < b))
  | .intv a, .floatv b => .ok (decide ((a : ℚ) < b))
  | .floatv a, .intv b => .ok (decide (a < (b : ℚ)))
  | .floatv a, .floatv b => .ok (decide (a < b))
  | .strv a, .strv b => .ok (decide (a < b))
  | _, _ => .error (.typeError "< not supported between instances of str and int/float")

/-- Stable insertion of `x` into an already sorted list, comparing with
`pyLtVal` exactly as a comparison sort does: `x` goes in front of the first
element not below it. -/
def insertPy (x : PyVal) : List PyVal → Except ClaspyError (List PyVal)
  | [] => .ok [x]
  | y :: ys => do
    let b ← pyLtVal y x
    if b then
      let r ← insertPy x ys
      .ok (y :: r)
    else
      .ok (x :: y :: ys)

/-- Python `sorted` on the transformed alleles, modelled as a stable
comparison-based insertion sort in the error monad: any list holding both a
numeric and a string value forces a cross-kind comparison and raises, as
every comparison sort (including Timsort) does on such input. -/
def sortPy : List PyVal → Except ClaspyError (List PyVal)
  | [] => .ok []
  | x :: xs => do
    let r ← sortPy xs
    insertPy x r

/-- Decimal digits of the proper fraction `n / d`, most significant first
(`n < d`; the denominator of every float in scope divides a power of ten,
so the expansion terminates within the fuel). -/
def fracDigits : ℕ → ℕ → ℕ → List Char
  | _, _, 0 => []
  | n, d, fuel + 1 =>
    if n = 0 then []
    else Char.ofNat (48 + n * 10 / d) :: fracDigits (n * 10 % d) d fuel

/-- Python `str` on a transformed allele.  For floats this is the shortest
round-tripping decimal, which for the short decimal alleles in scope is the
reduced decimal expansion of the rational. -/
def pyStr : PyVal → String
  | .intv n => toString n
  | .floatv q =>
    let fracNum := (q.num - q.floor * (q.den : ℤ)).toNat
    if fracNum = 0 then toString q.floor ++ ".0"
    else toString q.floor ++ "." ++ String.mk (fracDigits fracNum q.den 40)
  | .strv s => s

/-- `Profile.allele_repr`: transform every allele of the set, sort the
Python values, render and comma-join them.  The set is iterated in sorted
token order; the result is independent of the iteration order because
failure (mixed kinds) and the sorted output are both order-insensitive. -/
def allele_repr (s : Finset String) : Except ClaspyError String := do
  let toks ← (sortedAlleles s).mapM allele_transform
  let sorted ← sortPy toks
  .ok (joinAlleles (sorted.map pyStr))

/-! ## Search results (`result.py`) -/

/-- `ProfileResult`: the namedtuple `(sample, score, shared_alleles,
reference)`. -/
structure ProfileResult where
  sample : String
  score : ℚ
  shared_alleles : ℕ
  reference : Profile
deriving DecidableEq

/-- Lexicographic order on slugs, as Python compares the
`(identifier, accession, source)` tuples. -/
def slugLt (a b : String × String × String) : Prop :=
  a.1 < b.1 ∨ (a.1 = b.1 ∧ (a.2.1 < b.2.1 ∨ (a.2.1 = b.2.1 ∧ a.2.2 < b.2.2)))

instance (a b : String × String × String) : Decidable (slugLt a b) := by
  unfold slugLt
  exact inferInstance

/-- `<` on `ProfileResult` as Python evaluates it: namedtuple comparison,
elementwise on `(sample, score, shared_alleles, reference)`, where two
references compare by `Profile.__lt__`, i.e. by slug.  (When the slugs are
equal neither reference is `<` the other, which is also what the tuple
comparison yields whether or not the reference objects are identical.) -/
def ProfileResult.pyLt (a b : ProfileResult) : Prop :=
  a.sample < b.sample ∨ (a.sample = b.sample ∧
    (a.score < b.score ∨ (a.score = b.score ∧
      (a.shared_alleles < b.shared_alleles ∨ (a.shared_alleles = b.shared_alleles ∧
        slugLt a.reference.slug b.reference.slug)))))

instance (a b : ProfileResult) : Decidable (a.pyLt b) := by
  unfold ProfileResult.pyLt
  exact inferInstance

/-- The relation by which `sorted(self, reverse=True)` orders a
`CellLineResult`: `a` precedes `b` when `a` is not below `b`. -/
def prGE (a b : ProfileResult) : Prop := ¬ a.pyLt b

instance : DecidableRel prGE := fun a b =>
  inferInstanceAs (Decidable (¬ a.pyLt b))

/-- `sorted(self, reverse=True)` in `CellLineResult.summary` and
`CellLineResult.full_report`: a stable descending sort by `pyLt`. -/
def sortResultsDesc (l : List ProfileResult) : List ProfileResult :=
  List.insertionSort prGE l

/-- `CellLineResult.top_score`: maximum score (Python `max` over a list
known nonempty; the empty default is never read by the theorems). -/
def top_score : List ProfileResult → ℚ
  | [] => 0
  | x :: xs => xs.foldl (fun m r => max m r.score) x.score

/-- `CellLineResult.top_score_shared_alleles`: maximum shared-allele count
among results achieving the top score. -/
def top_score_shared_alleles (c : List ProfileResult) : ℕ :=
  ((c.filter (fun r => r.score = top_score c)).map
    (fun r => r.shared_alleles)).foldr max 0

/-- Sort key used by `SearchResult.ids_by_score`:
`(top_score, top_score_shared_alleles)` lexicographically. -/
def clrKey (c : List ProfileResult) : ℚ ×ₗ ℕ :=
  toLex (top_score c, top_score_shared_alleles c)

/-- The relation by which `sorted(..., key=..., reverse=True)` orders the
cell-line results: `a` precedes `b` when its key is at least `b`'s. -/
def clrGE (a b : List ProfileResult) : Prop := clrKey b ≤ clrKey a

instance : DecidableRel clrGE := fun a b =>
  inferInstanceAs (Decidable (clrKey b ≤ clrKey a))

/-- `SearchResult.ids_by_score`: cell-line results sorted by descending
`(top_score, top_score_shared_alleles)` (a stable descending sort; the
dict yields the groups in first-appearance order and each group is fetched
back by its identifier, so the iteration is modelled directly on the
groups). -/
def ids_by_score (results : List (List ProfileResult)) :
    List (List ProfileResult) :=
  List.insertionSort clrGE results

/-- The loop body of `SearchResult.__iter__`: stop once `maxhits` groups
have been yielded (only when `maxhits > 0`), stop at the first group whose
top score is below `minscore`, otherwise yield and continue. -/
def iterLoop (minscore : ℚ) (maxhits : ℤ) :
    ℕ → List (List ProfileResult) → List (List ProfileResult)
  | _, [] => []
  | n, c :: rest =>
    if 0 < maxhits ∧ maxhits ≤ (n : ℤ) then []
    else if top_score c < minscore then []
    else c :: iterLoop minscore maxhits (n + 1) rest

/-- `SearchResult.__iter__` over the grouped results. -/
def searchIter (results : List (List ProfileResult)) (minscore : ℚ)
    (maxhits : ℤ) : List (List ProfileResult) :=
  iterLoop minscore maxhits 0 (ids_by_score results)

/-- The slug triple as a lexicographically ordered value. -/
def slugKey (s : String × String × String) : String ×ₗ (String ×ₗ String) :=
  toLex (s.1, toLex (s.2.1, s.2.2))

/-- The ranking key of a `ProfileResult`:
`(score, shared_alleles, reference slug)`, lexicographic. -/
def ProfileResult.rankKey (r : ProfileResult) :
    ℚ ×ₗ (ℕ ×ₗ (String ×ₗ (String ×ₗ String))) :=
  toLex (r.score, toLex (r.shared_alleles, slugKey r.reference.slug))

/-- The full namedtuple comparison key, with the sample name in front. -/
def ProfileResult.quadKey (r : ProfileResult) :
    String ×ₗ (ℚ ×ₗ (ℕ ×ₗ (String ×ₗ (String ×ₗ String)))) :=
  toLex (r.sample, r.rankKey)

/-- `slugLt` is the strict lexicographic order on slug keys. -/
def slugLt_iff_key : ∀ a b : String × String × String,
    slugLt a b ↔ slugKey a < slugKey b := by
  intro a b
  rw [slugLt, slugKey, slugKey, Prod.Lex.lt_iff, Prod.Lex.lt_iff]

/-- The Python namedtuple comparison is the strict lexicographic order on
the full keys. -/
def pyLt_iff_key : ∀ a b : ProfileResult,
    a.pyLt b ↔ a.quadKey < b.quadKey := by
  intro a b
  rw [ProfileResult.pyLt, ProfileResult.quadKey, ProfileResult.quadKey,
    ProfileResult.rankKey, ProfileResult.rankKey, Prod.Lex.lt_iff, Prod.Lex.lt_iff,
    Prod.Lex.lt_iff, slugLt_iff_key]

instance : IsTotal ProfileResult prGE :=
  ⟨fun a b => by
    rw [prGE, prGE, pyLt_iff_key, pyLt_iff_key]
    rcases le_total a.quadKey b.quadKey with h | h
    · exact Or.inr (not_lt.mpr h)
    · exact Or.inl (not_lt.mpr h)⟩

instance : IsTrans ProfileResult prGE :=
  ⟨fun a b c hab hbc => by
    rw [prGE, pyLt_iff_key] at *
    exact not_lt.mpr (le_trans (not_lt.mp hbc) (not_lt.mp hab))⟩

instance : IsTotal (List ProfileResult) clrGE :=
  ⟨fun a b => le_total (clrKey b) (clrKey a)⟩

instance : IsTrans (List ProfileResult) clrGE :=
  ⟨fun _ _ _ hab hbc => le_trans hbc hab⟩

/-! ## Flat-file record metadata (`db.py`, `CellosaurusEntry.parse_meta`) -/

/-- A value stored in the `CellosaurusEntry.meta` dict: `ID`/`AC`/`SY`
lines store strings, `OX` lines accumulate parallel taxid/organism lists. -/
inductive MetaVal where
  | str (s : String)
  | intList (l : List ℤ)
  | strList (l : List String)
deriving DecidableEq, Repr

/-- `CellosaurusEntry.ATTRIBUTES`. -/
def ATTRIBUTES : List (String × String) :=
  [("ID", "identifier"), ("AC", "accession"), ("SY", "synonyms")]

/-- Python `str.startswith`. -/
def pyStartsWith (s p : String) : Bool := p.toList.isPrefixOf s.toList

/-- `re.split(r"\s+", line, 1)`: the text before the first whitespace run
and the text after it, or `none` when the line has no whitespace (in which
case the two-name unpacking in the source raises `ValueError`). -/
def splitFirstWS (l : List Char) : Option (List Char × List Char) :=
  let key := l.takeWhile (fun c => ¬ c.isWhitespace)
  let rest := l.dropWhile (fun c => ¬ c.isWhitespace)
  match rest with
  | [] => none
  | _ :: _ => some (key, rest.dropWhile (fun c => c.isWhitespace))

/-- `re.match(r"OX   NCBI_TaxID=(\d+); ! ([^\n]+)", line)`. -/
def parseOX (line : String) : Option (ℤ × String) :=
  let l := line.toList
  let pre := "OX   NCBI_TaxID=".toList
  if pre.isPrefixOf l then
    let rest := l.drop pre.length
    let digits := rest.takeWhile Char.isDigit
    let rest2 := rest.dropWhile Char.isDigit
    if digits ≠ [] ∧ ("; ! ".toList).isPrefixOf rest2 ∧ rest2.drop 4 ≠ [] then
      some ((digitsToNat digits : ℤ), String.mk (rest2.drop 4))
    else none
  else none

/-- Append a parsed taxid and organism to the two parallel lists in the
meta dict. -/
def metaAppendOX (meta : List (String × MetaVal)) (t : ℤ) (org : String) :
    List (String × MetaVal) :=
  let meta1 : List (String × MetaVal) :=
    match meta.lookup "taxid" with
    | some (MetaVal.intList l) => dictInsert "taxid" (.intList (l ++ [t])) meta
    | _ => meta
  match meta1.lookup "organism" with
  | some (MetaVal.strList l) => dictInsert "organism" (.strList (l ++ [org])) meta1
  | _ => meta1

/-- `CellosaurusEntry.parse_meta`, applied to one line: `ID`/`AC`/`SY`
lines assert the raw code is not already a key of the meta dict, then store
the value under the attribute name; `OX` lines parse the taxid/organism
pair and append it; other lines leave the dict unchanged. -/
def parse_meta (meta : List (String × MetaVal)) (line : String) :
    Except ClaspyError (List (String × MetaVal)) :=
  if pyStartsWith line "ID" ∨ pyStartsWith line "AC" ∨ pyStartsWith line "SY" then
    match splitFirstWS line.toList with
    | none => .error (.valueError "not enough values to unpack")
    | some (k, v) =>
      let key := String.mk k
      if (meta.lookup key).isSome then .error (.assertionError key)
      else
        match ATTRIBUTES.lookup key with
        | some attr => .ok (dictInsert attr (.str (String.mk v)) meta)
        | none => .error (.keyError key)
  else if pyStartsWith line "OX" then
    match parseOX line with
    | none => .error (.valueError ("cannot parse species of origin: " ++ line))
    | some (t, org) =>
      let meta1 :=
        if (meta.lookup "taxid").isSome then meta
        else dictInsert "organism" (.strList []) (dictInsert "taxid" (.intList []) meta)
      .ok (metaAppendOX meta1 t org)
  else .ok meta

/-- The meta dict built by `CellosaurusEntry.__init__` from a record's
lines (the `parse_sources`/`parse_alleles` passes do not touch `meta`). -/
def entry_meta (data : List String) : Except ClaspyError (List (String × MetaVal)) :=
  data.foldlM parse_meta []

/-! ## Persisted database round trip (`db.py`) -/

/-- The `{"meta": ..., "alleles": ...}` payload of one profile
(`Profile.payload`), with the parts structured rather than rendered:
`json.dump` is a deterministic function of this data, so equal payload
lists serialize to identical byte streams. -/
def Profile.payload (p : Profile) : Meta × List (String × String) :=
  (p.meta, p.allele_dict)

/-- `CellosaurusDB.to_json`, at payload level. -/
def to_json (db : List Profile) : List (Meta × List (String × String)) :=
  db.map Profile.payload

/-- `CellosaurusDB.from_json`: rebuild one `Profile` per payload entry. -/
def from_json : List (Meta × List (String × String)) →
    Except ClaspyError (List Profile)
  | [] => .ok []
  | (meta, alleles) :: rest => do
    let p ← mkProfile alleles meta
    let ps ← from_json rest
    .ok (p :: ps)

/-! ## Helper lemmas: dictionaries -/

theorem lookup_dictInsert_self {β : Type} (k : String) (v : β)
    (d : List (String × β)) : (dictInsert k v d).lookup k = some v := by
  induction d with
  | nil => simp [dictInsert, List.lookup_cons]
  | cons kv rest ih =>
    obtain ⟨k1, v1⟩ := kv
    by_cases h : k1 = k
    · simp [dictInsert, h, List.lookup_cons]
    · simp [dictInsert, h, List.lookup_cons, beq_false_of_ne (Ne.symm h), ih]

theorem lookup_dictInsert_ne {β : Type} (k k' : String) (v : β)
    (d : List (String × β)) (h : k' ≠ k) :
    (dictInsert k v d).lookup k' = d.lookup k' := by
  induction d with
  | nil => simp [dictInsert, List.lookup_cons, beq_false_of_ne h]
  | cons kv rest ih =>
    obtain ⟨k1, v1⟩ := kv
    by_cases hk : k1 = k
    · subst hk
      simp [dictInsert, List.lookup_cons, beq_false_of_ne h]
    · simp [dictInsert, hk, List.lookup_cons, ih]

theorem keys_dictInsert {β : Type} (k : String) (v : β) (d : List (String × β)) :
    (dictInsert k v d).map Prod.fst =
      if k ∈ d.map Prod.fst then d.map Prod.fst else d.map Prod.fst ++ [k] := by
  induction d with
  | nil => simp [dictInsert]
  | cons kv rest ih =>
    obtain ⟨k1, v1⟩ := kv
    by_cases h : k1 = k
    · simp [dictInsert, h]
    · simp only [dictInsert, if_neg h, List.map_cons, List.mem_cons, ih]
      by_cases hm : k ∈ rest.map Prod.fst
      · simp [hm, Ne.symm h]
      · simp [hm, Ne.symm h]

theorem mem_keys_dictInsert {β : Type} (k x : String) (v : β)
    (d : List (String × β)) :
    x ∈ (dictInsert k v d).map Prod.fst ↔ x ∈ d.map Prod.fst ∨ x = k := by
  rw [keys_dictInsert]
  by_cases hm : k ∈ d.map Prod.fst
  · simp only [if_pos hm]
    constructor
    · exact Or.inl
    · rintro (h | rfl)
      · exact h
      · exact hm
  · simp [if_neg hm]

theorem dictInsert_ne_nil {β : Type} (k : String) (v : β) (d : List (String × β)) :
    dictInsert k v d ≠ [] := by
  cases d with
  | nil => simp [dictInsert]
  | cons kv rest =>
    by_cases h : kv.1 = k <;> simp [dictInsert, h]

theorem nodup_keys_dictInsert {β : Type} (k : String) (v : β)
    (d : List (String × β)) (h : (d.map Prod.fst).Nodup) :
    ((dictInsert k v d).map Prod.fst).Nodup := by
  rw [keys_dictInsert]
  by_cases hm : k ∈ d.map Prod.fst
  · simpa [hm] using h
  · rw [if_neg hm, List.nodup_append]
    refine ⟨h, List.nodup_singleton _, ?_⟩
    intro a ha hb
    rw [List.mem_singleton] at hb
    subst hb
    exact hm ha

theorem mem_dictInsert_of_lookup {β : Type} (d : List (String × β))
    (hn : (d.map Prod.fst).Nodup) (k : String) (w : β) :
    (k, w) ∈ d ↔ d.lookup k = some w := by
  induction d with
  | nil => simp
  | cons kv rest ih =>
    obtain ⟨k1, v1⟩ := kv
    simp only [List.map_cons, List.nodup_cons] at hn
    by_cases h : k1 = k
    · subst h
      simp only [List.lookup_cons, beq_self_eq_true, List.mem_cons, Prod.mk.injEq,
        true_and, Option.some.injEq]
      constructor
      · rintro (rfl | hmem)
        · rfl
        · exact absurd (List.mem_map_of_mem Prod.fst hmem) hn.1
      · rintro rfl
        exact Or.inl rfl
    · simp only [List.lookup_cons, beq_false_of_ne (fun e => h e.symm), List.mem_cons,
        Prod.mk.injEq, ← ih hn.2]
      constructor
      · rintro (⟨h1, _⟩ | h')
        · exact absurd h1.symm h
        · exact h'
      · exact Or.inr

/-! ## Helper lemmas: split and join -/

theorem splitChar_ne_nil (c : Char) (l : List Char) : splitChar c l ≠ [] := by
  induction l with
  | nil => simp [splitChar]
  | cons x xs ih =>
    simp only [splitChar]
    by_cases h : x = c
    · simp [h]
    · simp [h]

theorem not_mem_of_mem_splitChar (c : Char) (l : List Char) (p : List Char)
    (hp : p ∈ splitChar c l) : c ∉ p := by
  induction l generalizing p with
  | nil =>
    simp only [splitChar, List.mem_singleton] at hp
    subst hp
    simp
  | cons x xs ih =>
    simp only [splitChar] at hp
    by_cases h : x = c
    · rw [if_pos h, List.mem_cons] at hp
      rcases hp with rfl | hp
      · simp
      · exact ih p hp
    · rw [if_neg h] at hp
      rcases List.exists_cons_of_ne_nil (splitChar_ne_nil c xs) with ⟨q, r, hqr⟩
      rw [hqr] at hp
      simp only [List.headD_cons, List.tail_cons, List.mem_cons] at hp
      rcases hp with rfl | hp
      · intro hc
        rcases List.mem_cons.mp hc with rfl | hc
        · exact h rfl
        · exact ih q (hqr ▸ List.mem_cons_self q r) hc
      · exact ih p (hqr ▸ List.mem_cons_of_mem q hp)

theorem mem_splitChar_subset (c : Char) (l : List Char) (p : List Char)
    (hp : p ∈ splitChar c l) : ∀ x ∈ p, x ∈ l := by
  induction l generalizing p with
  | nil =>
    simp only [splitChar, List.mem_singleton] at hp
    subst hp
    simp
  | cons x xs ih =>
    simp only [splitChar] at hp
    by_cases h : x = c
    · rw [if_pos h, List.mem_cons] at hp
      rcases hp with rfl | hp
      · simp
      · exact fun y hy => List.mem_cons_of_mem x (ih p hp y hy)
    · rw [if_neg h] at hp
      rcases List.exists_cons_of_ne_nil (splitChar_ne_nil c xs) with ⟨q, r, hqr⟩
      rw [hqr] at hp
      simp only [List.headD_cons, List.tail_cons, List.mem_cons] at hp
      rcases hp with rfl | hp
      · intro y hy
        rcases List.mem_cons.mp hy with rfl | hy
        · exact List.mem_cons_self y xs
        · exact List.mem_cons_of_mem x (ih q (hqr ▸ List.mem_cons_self q r) y hy)
      · exact fun y hy => List.mem_cons_of_mem x (ih p (hqr ▸ List.mem_cons_of_mem q hp) y hy)

theorem splitChar_of_not_mem (c : Char) (p : List Char) (hc : c ∉ p) :
    splitChar c p = [p] := by
  induction p with
  | nil => rfl
  | cons x xs ih =>
    have hx : x ≠ c := fun e => hc (e ▸ List.mem_cons_self x xs)
    have hxs : c ∉ xs := fun h => hc (List.mem_cons_of_mem x h)
    simp [splitChar, hx, ih hxs]

theorem splitChar_append_sep (c : Char) (p rest : List Char) (hc : c ∉ p) :
    splitChar c (p ++ c :: rest) = p :: splitChar c rest := by
  induction p with
  | nil => simp [splitChar]
  | cons x xs ih =>
    have hx : x ≠ c := fun e => hc (e ▸ List.mem_cons_self x xs)
    have hxs : c ∉ xs := fun h => hc (List.mem_cons_of_mem x h)
    have hrec := ih hxs
    simp only [List.cons_append, splitChar, if_neg hx, List.append_eq]
    rw [hrec]
    simp

theorem splitChar_joinChar (c : Char) (ps : List (List Char)) (hne : ps ≠ [])
    (hfree : ∀ p ∈ ps, c ∉ p) : splitChar c (joinChar c ps) = ps := by
  induction ps with
  | nil => exact absurd rfl hne
  | cons p ps ih =>
    cases ps with
    | nil =>
      simp only [joinChar]
      exact splitChar_of_not_mem c p (hfree p (List.mem_cons_self p []))
    | cons q qs =>
      have h1 : joinChar c (p :: q :: qs) = p ++ c :: joinChar c (q :: qs) := rfl
      rw [h1, splitChar_append_sep c p _ (hfree p (List.mem_cons_self p _))]
      rw [ih (by simp) (fun r hr => hfree r (List.mem_cons_of_mem p hr))]

theorem mem_of_mem_joinChar (c : Char) (ps : List (List Char)) (x : Char)
    (hx : x ∈ joinChar c ps) : x = c ∨ ∃ p ∈ ps, x ∈ p := by
  induction ps with
  | nil => simp [joinChar] at hx
  | cons p ps ih =>
    cases ps with
    | nil =>
      simp only [joinChar] at hx
      exact Or.inr ⟨p, List.mem_cons_self p [], hx⟩
    | cons q qs =>
      rw [show joinChar c (p :: q :: qs) = p ++ c :: joinChar c (q :: qs) from rfl] at hx
      rcases List.mem_append.mp hx with h | h
      · exact Or.inr ⟨p, List.mem_cons_self p _, h⟩
      · rcases List.mem_cons.mp h with rfl | h
        · exact Or.inl rfl
        · rcases ih h with h | ⟨r, hr, hxr⟩
          · exact Or.inl h
          · exact Or.inr ⟨r, List.mem_cons_of_mem p hr, hxr⟩

/-! ## Helper lemmas: sorted allele lists -/

theorem mem_sortedAlleles (s : Finset String) (a : String) :
    a ∈ sortedAlleles s ↔ a ∈ s := by
  rw [Finset.mem_def]
  obtain ⟨m, hm⟩ := s
  show a ∈ Quotient.lift _ _ m ↔ a ∈ m
  induction m using Quotient.inductionOn with
  | h l =>
    rw [show Quotient.lift _ _ (Quotient.mk _ l) =
        List.insertionSort (fun a b : String => a ≤ b) l from rfl]
    rw [List.mem_insertionSort]
    exact Iff.rfl

theorem sortedAlleles_ne_nil (s : Finset String) (h : s.Nonempty) :
    sortedAlleles s ≠ [] := by
  obtain ⟨a, ha⟩ := h
  intro he
  rw [← mem_sortedAlleles, he] at ha
  exact absurd ha (List.not_mem_nil a)

theorem toFinset_sortedAlleles (s : Finset String) :
    (sortedAlleles s).toFinset = s := by
  ext a
  rw [List.mem_toFinset, mem_sortedAlleles]

/-! ## Helper lemmas: marker standardization -/

theorem findCanon_some (cand : String) (table : List (ℕ × List String))
    (c : String) (t : ℕ) (h : findCanon cand table = some (c, t)) :
    normalize c = cand := by
  induction table with
  | nil => simp [findCanon] at h
  | cons e rest ih =>
    obtain ⟨tx, names⟩ := e
    simp only [findCanon] at h
    cases hf : names.find? (fun sn => normalize sn == cand) with
    | some sn =>
      rw [hf] at h
      have h2 : (sn, tx) = (c, t) := Option.some.inj h
      cases h2
      have hp := List.find?_some hf
      exact beq_iff_eq.mp hp
    | none =>
      rw [hf] at h
      exact ih h

theorem standardize_name_resolved (raw c : String) (t : ℕ)
    (h : standardize_name raw = (some c, some t)) :
    findCanon (normalize raw) valid_names = some (c, t) ∧ normalize c = normalize raw := by
  unfold standardize_name at h
  cases hf : findCanon (normalize raw) valid_names with
  | some p =>
    obtain ⟨c', t'⟩ := p
    rw [hf] at h
    obtain ⟨h1, h2⟩ := Prod.mk.injEq .. ▸ h
    obtain rfl : c' = c := Option.some.inj h1
    obtain rfl : t' = t := Option.some.inj h2
    exact ⟨rfl, findCanon_some _ _ _ _ hf⟩
  | none =>
    rw [hf] at h
    simp at h

/-- Canonical names are fixed points of resolution: if `raw` standardizes to
`(c, t)` then so does `c` itself. -/
theorem standardize_name_idem (raw c : String) (t : ℕ)
    (h : standardize_name raw = (some c, some t)) :
    standardize_name c = (some c, some t) := by
  obtain ⟨hfind, hnorm⟩ := standardize_name_resolved raw c t h
  unfold standardize_name
  rw [hnorm, hfind]

theorem standardize_name_shape (n : String) :
    (∃ c t, standardize_name n = (some c, some t)) ∨
      standardize_name n = (none, none) := by
  unfold standardize_name
  cases findCanon (normalize n) valid_names with
  | some p => exact Or.inl ⟨p.1, p.2, rfl⟩
  | none => exact Or.inr rfl

theorem standardize_fst_none_iff (n : String) :
    (standardize_name n).1 = none ↔ (standardize_name n).2 = none := by
  rcases standardize_name_shape n with ⟨c, t, h⟩ | h <;> simp [h]

/-! ## Helper lemmas: the `valid` dict of `validate_names` -/

theorem lookup_foldl_dict (f : String → Option String) :
    ∀ (names : List String) (acc : List (String × Option String)) (k : String),
    ((names.foldl (fun a n => dictInsert n (f n) a) acc).lookup k) =
      if k ∈ names then some (f k) else acc.lookup k := by
  intro names
  induction names with
  | nil => intro acc k; simp
  | cons n ns ih =>
    intro acc k
    rw [List.foldl_cons, ih]
    by_cases hm : k ∈ ns
    · simp [hm]
    · by_cases hk : k = n
      · subst hk
        simp [hm, lookup_dictInsert_self]
      · simp [hm, hk, lookup_dictInsert_ne _ _ _ _ hk]

theorem lookup_validDict (names : List String) (k : String) :
    (validDict names).lookup k =
      if k ∈ names then some ((standardize_name k).1) else none := by
  rw [validDict, lookup_foldl_dict]
  simp

theorem mem_keys_foldl_validDict :
    ∀ (names : List String) (acc : List (String × Option String)) (x : String),
    x ∈ ((names.foldl (fun a n => dictInsert n (standardize_name n).1 a) acc).map Prod.fst) ↔
      x ∈ acc.map Prod.fst ∨ x ∈ names := by
  intro names
  induction names with
  | nil => intro acc x; simp
  | cons n ns ih =>
    intro acc x
    rw [List.foldl_cons, ih, mem_keys_dictInsert]
    simp only [List.mem_cons]
    constructor
    · rintro ((h | rfl) | h)
      · exact Or.inl h
      · exact Or.inr (Or.inl rfl)
      · exact Or.inr (Or.inr h)
    · rintro (h | rfl | h)
      · exact Or.inl (Or.inl h)
      · exact Or.inl (Or.inr rfl)
      · exact Or.inr h

theorem nodup_keys_foldl_validDict :
    ∀ (names : List String) (acc : List (String × Option String)),
    (acc.map Prod.fst).Nodup →
    ((names.foldl (fun a n => dictInsert n (standardize_name n).1 a) acc).map Prod.fst).Nodup := by
  intro names
  induction names with
  | nil => intro acc h; simpa
  | cons n ns ih =>
    intro acc h
    rw [List.foldl_cons]
    exact ih _ (nodup_keys_dictInsert _ _ _ h)

theorem nodup_keys_validDict (names : List String) :
    ((validDict names).map Prod.fst).Nodup :=
  nodup_keys_foldl_validDict names [] (by simp)

theorem mem_validDict_iff (names : List String) (k : String) (w : Option String) :
    (k, w) ∈ validDict names ↔ k ∈ names ∧ w = (standardize_name k).1 := by
  rw [mem_dictInsert_of_lookup _ (nodup_keys_validDict names), lookup_validDict]
  by_cases hm : k ∈ names
  · simp [hm, eq_comm]
  · simp [hm]

/-! ## Helper lemmas: `validate_names` -/

theorem dedup_const {α : Type} [DecidableEq α] :
    ∀ (l : List α) (v : α), l ≠ [] → (∀ x ∈ l, x = v) → l.dedup = [v] := by
  intro l
  induction l with
  | nil => intro v h; exact absurd rfl h
  | cons x xs ih =>
    intro v _ hall
    obtain rfl : x = v := hall x (List.mem_cons_self x xs)
    by_cases hx : xs = []
    · subst hx
      simp
    · have h1 : xs.dedup = [x] :=
        ih x hx (fun z hz => hall z (List.mem_cons_of_mem x hz))
      have hmem : x ∈ xs :=
        List.mem_dedup.mp (h1 ▸ List.mem_singleton.mpr rfl)
      rw [List.dedup_cons_of_mem hmem, h1]

theorem validate_names_ok_iff (names : List String) (valid : List (String × Option String))
    (t : ℕ) :
    validate_names names = .ok (valid, t) ↔
      valid = validDict names ∧ names ≠ [] ∧
        (∀ n ∈ names, (standardize_name n).2 = some t) := by
  constructor
  · intro h
    simp only [validate_names] at h
    split at h
    · exact absurd h (by simp)
    · split at h
      · exact absurd h (by simp)
      · split at h
        next heq =>
          obtain ⟨h1, h2⟩ := Prod.mk.inj (Except.ok.inj h)
          subst h1
          subst h2
          refine ⟨rfl, ?_, ?_⟩
          · intro he
            subst he
            simp at heq
          · intro n hn
            have hmem : (standardize_name n).2 ∈
                (names.map (fun n => (standardize_name n).2)).dedup := by
              rw [List.mem_dedup]
              exact List.mem_map_of_mem _ hn
            rw [heq] at hmem
            exact List.mem_singleton.mp hmem
        · exact absurd h (by simp)
  · rintro ⟨rfl, hne, hall⟩
    unfold validate_names
    have hded : (names.map (fun n => (standardize_name n).2)).dedup = [some t] := by
      refine dedup_const _ _ (by simpa using hne) ?_
      intro x hx
      obtain ⟨n, hn, rfl⟩ := List.mem_map.mp hx
      exact hall n hn
    rw [hded]
    simp

theorem validate_names_nil :
    validate_names [] = .error (.keyError "pop from an empty set") := by
  decide

/-! ## Helper lemmas: building the allele dict of a profile -/

theorem mkProfile_ok_inv (alleles : List (String × String)) (meta : Meta) (p : Profile)
    (h : mkProfile alleles meta = .ok p) :
    p.meta = meta ∧
      validate_names (alleles.map Prod.fst) =
        .ok (validDict (alleles.map Prod.fst), p.taxid) ∧
      p.alleles = alleles.foldl
        (fun acc ma =>
          dictInsert (canonicalOf (validDict (alleles.map Prod.fst)) ma.1)
            (parse_allele_string ma.2) acc) [] := by
  unfold mkProfile at h
  cases hv : validate_names (alleles.map Prod.fst) with
  | error e => rw [hv] at h; exact absurd h (by simp)
  | ok pair =>
    obtain ⟨valid, t⟩ := pair
    rw [hv] at h
    have hvd : valid = validDict (alleles.map Prod.fst) :=
      ((validate_names_ok_iff _ _ _).mp hv).1
    subst hvd
    have hp : (⟨alleles.foldl
        (fun acc ma =>
          dictInsert (canonicalOf (validDict (alleles.map Prod.fst)) ma.1)
            (parse_allele_string ma.2) acc) [],
        t, meta⟩ : Profile) = p := Except.ok.inj h
    cases hp
    exact ⟨rfl, rfl, rfl⟩

theorem foldl_dictInsert_ne_nil {β : Type} (step : String × String → String)
    (pf : String × String → β) :
    ∀ (l : List (String × String)) (acc : List (String × β)),
    (acc ≠ [] ∨ l ≠ []) →
    l.foldl (fun a ma => dictInsert (step ma) (pf ma) a) acc ≠ [] := by
  intro l
  induction l with
  | nil =>
    intro acc h
    rcases h with h | h
    · simpa using h
    · exact absurd rfl h
  | cons ma rest ih =>
    intro acc _
    rw [List.foldl_cons]
    exact ih _ (Or.inl (dictInsert_ne_nil _ _ _))

theorem mem_keys_foldl_profile {β : Type} (step : String × String → String)
    (pf : String × String → β) :
    ∀ (l : List (String × String)) (acc : List (String × β)) (x : String),
    x ∈ (l.foldl (fun a ma => dictInsert (step ma) (pf ma) a) acc).map Prod.fst ↔
      x ∈ acc.map Prod.fst ∨ ∃ ma ∈ l, x = step ma := by
  intro l
  induction l with
  | nil => intro acc x; simp
  | cons ma rest ih =>
    intro acc x
    rw [List.foldl_cons, ih, mem_keys_dictInsert]
    constructor
    · rintro ((h | rfl) | ⟨mb, hmb, rfl⟩)
      · exact Or.inl h
      · exact Or.inr ⟨ma, List.mem_cons_self ma rest, rfl⟩
      · exact Or.inr ⟨mb, List.mem_cons_of_mem ma hmb, rfl⟩
    · rintro (h | ⟨mb, hmb, rfl⟩)
      · exact Or.inl (Or.inl h)
      · rcases List.mem_cons.mp hmb with rfl | hmb
        · exact Or.inl (Or.inr rfl)
        · exact Or.inr ⟨mb, hmb, rfl⟩

theorem mem_dictInsert_elim {β : Type} (k : String) (v : β) (d : List (String × β))
    (kv : String × β) (h : kv ∈ dictInsert k v d) : kv = (k, v) ∨ kv ∈ d := by
  induction d with
  | nil => simpa [dictInsert] using h
  | cons e rest ih =>
    by_cases he : e.1 = k
    · rw [dictInsert, if_pos he] at h
      rcases List.mem_cons.mp h with rfl | h
      · exact Or.inl rfl
      · exact Or.inr (List.mem_cons_of_mem e h)
    · rw [dictInsert, if_neg he] at h
      rcases List.mem_cons.mp h with rfl | h
      · exact Or.inr (List.mem_cons_self e rest)
      · rcases ih h with h | h
        · exact Or.inl h
        · exact Or.inr (List.mem_cons_of_mem e h)

theorem values_foldl_profile {β : Type} (step : String × String → String)
    (pf : String × String → β) :
    ∀ (l : List (String × String)) (acc : List (String × β)) (kv : String × β),
    kv ∈ l.foldl (fun a ma => dictInsert (step ma) (pf ma) a) acc →
      kv ∈ acc ∨ ∃ ma ∈ l, kv.2 = pf ma := by
  intro l
  induction l with
  | nil => intro acc kv h; exact Or.inl h
  | cons ma rest ih =>
    intro acc kv h
    rw [List.foldl_cons] at h
    rcases ih _ kv h with h | ⟨mb, hmb, he⟩
    · rcases mem_dictInsert_elim _ _ _ _ h with rfl | h
      · exact Or.inr ⟨ma, List.mem_cons_self ma rest, rfl⟩
      · exact Or.inl h
    · exact Or.inr ⟨mb, List.mem_cons_of_mem ma hmb, he⟩

theorem nodup_keys_foldl_profile {β : Type} (step : String × String → String)
    (pf : String × String → β) :
    ∀ (l : List (String × String)) (acc : List (String × β)),
    (acc.map Prod.fst).Nodup →
    ((l.foldl (fun a ma => dictInsert (step ma) (pf ma) a) acc).map Prod.fst).Nodup := by
  intro l
  induction l with
  | nil => intro acc h; simpa
  | cons ma rest ih =>
    intro acc h
    rw [List.foldl_cons]
    exact ih _ (nodup_keys_dictInsert _ _ _ h)

/-! ## Helper lemmas: allele token sets -/

theorem parse_allele_string_nonempty (s : String) :
    (parse_allele_string s).Nonempty := by
  obtain ⟨q, r, hqr⟩ :=
    List.exists_cons_of_ne_nil
      (splitChar_ne_nil ',' (s.toList.filter (fun c => c ≠ ' ')))
  refine ⟨String.mk q, ?_⟩
  rw [parse_allele_string, List.mem_toFinset, hqr]
  exact List.mem_map_of_mem _ (List.mem_cons_self q r)

theorem parse_allele_string_clean (s : String) (t : String)
    (ht : t ∈ parse_allele_string s) : ',' ∉ t.toList ∧ ' ' ∉ t.toList := by
  rw [parse_allele_string, List.mem_toFinset] at ht
  obtain ⟨cs, hcs, rfl⟩ := List.mem_map.mp ht
  have h1 : ',' ∉ cs := not_mem_of_mem_splitChar _ _ _ hcs
  have h2 : ' ' ∉ cs := by
    intro hsp
    have := mem_splitChar_subset _ _ _ hcs ' ' hsp
    rw [List.mem_filter] at this
    simp at this
  exact ⟨h1, h2⟩

theorem parse_join_sorted (s : Finset String) (hne : s.Nonempty)
    (hclean : ∀ t ∈ s, ',' ∉ t.toList ∧ ' ' ∉ t.toList) :
    parse_allele_string (joinAlleles (sortedAlleles s)) = s := by
  have hmk : ∀ cs : List Char, (String.mk cs).toList = cs := fun cs => rfl
  have hjoin : (joinAlleles (sortedAlleles s)).toList =
      joinChar ',' ((sortedAlleles s).map String.toList) := rfl
  rw [parse_allele_string, hjoin]
  have hfilter : (joinChar ',' ((sortedAlleles s).map String.toList)).filter
      (fun c => c ≠ ' ') = joinChar ',' ((sortedAlleles s).map String.toList) := by
    rw [List.filter_eq_self]
    intro x hx
    rcases mem_of_mem_joinChar _ _ _ hx with rfl | ⟨p, hp, hxp⟩
    · simp
    · obtain ⟨tok, htok, rfl⟩ := List.mem_map.mp hp
      have : tok ∈ s := (mem_sortedAlleles s tok).mp htok
      have hsp := (hclean tok this).2
      simp only [ne_eq, decide_not, Bool.not_eq_true', decide_eq_false_iff_not]
      intro he
      exact hsp (he ▸ hxp)
  rw [hfilter]
  rw [splitChar_joinChar ',' _ ?hne ?hfree]
  case hne =>
    intro he
    exact sortedAlleles_ne_nil s hne (List.map_eq_nil_iff.mp he)
  case hfree =>
    intro p hp
    obtain ⟨tok, htok, rfl⟩ := List.mem_map.mp hp
    exact (hclean tok ((mem_sortedAlleles s tok).mp htok)).1
  rw [List.map_map]
  have hcomp : ((fun cs => String.mk cs) ∘ String.toList) = id := by
    funext t
    rfl
  rw [hcomp, List.map_id, toFinset_sortedAlleles]

theorem dictInsert_append {β : Type} (k : String) (v : β) (d : List (String × β))
    (h : k ∉ d.map Prod.fst) : dictInsert k v d = d ++ [(k, v)] := by
  induction d with
  | nil => rfl
  | cons e rest ih =>
    have hne : e.1 ≠ k := by
      intro he
      exact h (by simp [he])
    rw [dictInsert, if_neg hne, ih (fun hm => h (by simp [hm]))]
    obtain ⟨k1, v1⟩ := e
    rfl

/-- Rebuilding a dict whose entries are transformed and parsed back to
themselves reproduces the dict. -/
theorem foldl_dictInsert_rebuild (G : String → String)
    (F : Finset String → String) (P : String → Finset String) :
    ∀ (d : List (String × Finset String)) (acc : List (String × Finset String)),
    (d.map Prod.fst).Nodup →
    (∀ kv ∈ d, kv.1 ∉ acc.map Prod.fst) →
    (∀ kv ∈ d, G kv.1 = kv.1 ∧ P (F kv.2) = kv.2) →
    ((d.map (fun ma => (ma.1, F ma.2))).foldl
      (fun acc2 ma => dictInsert (G ma.1) (P ma.2) acc2) acc) = acc ++ d := by
  intro d
  induction d with
  | nil => intro acc _ _ _; simp
  | cons kv rest ih =>
    intro acc hnd hdisj hfix
    obtain ⟨k, sset⟩ := kv
    rw [List.map_cons, List.foldl_cons]
    have hfix1 := hfix (k, sset) (List.mem_cons_self _ _)
    rw [hfix1.1, hfix1.2]
    rw [dictInsert_append k sset acc (hdisj (k, sset) (List.mem_cons_self _ _))]
    rw [List.map_cons, List.nodup_cons] at hnd
    rw [ih (acc ++ [(k, sset)]) hnd.2 ?hdisj2 (fun kv2 h2 => hfix kv2 (List.mem_cons_of_mem _ h2))]
    · simp
    case hdisj2 =>
      intro kv2 h2
      rw [List.map_append, List.mem_append]
      rintro (hm | hm)
      · exact hdisj kv2 (List.mem_cons_of_mem _ h2) hm
      · simp only [List.map_cons, List.map_nil, List.mem_singleton] at hm
        refine hnd.1 ?_
        rw [← hm]
        exact List.mem_map.mpr ⟨kv2, h2, rfl⟩


/-! ## Helper lemmas: profile reconstruction -/

theorem canonicalOf_validDict (names : List String) (k c : String) (t : ℕ)
    (hmem : k ∈ names) (hstd : standardize_name k = (some c, some t)) :
    canonicalOf (validDict names) k = c := by
  unfold canonicalOf
  rw [lookup_validDict, if_pos hmem, hstd]
  rfl

theorem allele_dict_keys (p : Profile) :
    p.allele_dict.map Prod.fst = p.alleles.map Prod.fst := by
  rw [Profile.allele_dict, List.map_map]
  rfl

/-- The key fact behind the persisted-format round trip: a profile built by
`Profile.__init__` reconstructs to itself from its own payload. -/
theorem mkProfile_roundtrip (alleles : List (String × String)) (meta : Meta)
    (p : Profile) (h : mkProfile alleles meta = .ok p) :
    mkProfile p.allele_dict p.meta = .ok p := by
  obtain ⟨hmeta, hval, halle⟩ := mkProfile_ok_inv alleles meta p h
  obtain ⟨-, hnames_ne, hall_t⟩ := (validate_names_ok_iff _ _ _).mp hval
  have halleles_ne : alleles ≠ [] := by
    intro he
    exact hnames_ne (by simp [he])
  -- every key of the built dict is canonical and resolves to the taxid
  have hK1 : ∀ x ∈ p.alleles.map Prod.fst,
      standardize_name x = (some x, some p.taxid) := by
    intro x hx
    rw [halle] at hx
    rcases (mem_keys_foldl_profile
        (fun ma => canonicalOf (validDict (alleles.map Prod.fst)) ma.1)
        (fun ma => parse_allele_string ma.2) alleles [] x).mp hx with h0 | ⟨ma, hma, rfl⟩
    · simp at h0
    · have hraw : ma.1 ∈ alleles.map Prod.fst := List.mem_map.mpr ⟨ma, hma, rfl⟩
      have hsnd := hall_t ma.1 hraw
      rcases standardize_name_shape ma.1 with ⟨c, t, hstd⟩ | hstd
      · have ht : t = p.taxid := by
          rw [hstd] at hsnd
          exact Option.some.inj hsnd
        subst ht
        rw [canonicalOf_validDict _ _ _ _ hraw hstd]
        exact standardize_name_idem _ _ _ hstd
      · rw [hstd] at hsnd
        exact absurd hsnd (by simp)
  have hK2 : p.alleles ≠ [] := by
    rw [halle]
    exact foldl_dictInsert_ne_nil _ _ alleles [] (Or.inr halleles_ne)
  have hK3 : (p.alleles.map Prod.fst).Nodup := by
    rw [halle]
    exact nodup_keys_foldl_profile _ _ alleles [] (by simp)
  have hV : ∀ kv ∈ p.alleles, (kv.2 : Finset String).Nonempty ∧
      ∀ tok ∈ kv.2, ',' ∉ tok.toList ∧ ' ' ∉ tok.toList := by
    intro kv hkv
    rw [halle] at hkv
    rcases values_foldl_profile
        (fun ma => canonicalOf (validDict (alleles.map Prod.fst)) ma.1)
        (fun ma => parse_allele_string ma.2) alleles [] kv hkv with h0 | ⟨ma, _, he⟩
    · simp at h0
    · rw [he]
      exact ⟨parse_allele_string_nonempty _,
        fun tok htok => parse_allele_string_clean _ tok htok⟩
  -- the payload keys are the profile keys
  have hkeys : p.allele_dict.map Prod.fst = p.alleles.map Prod.fst :=
    allele_dict_keys p
  -- validation of the payload keys succeeds with the same taxid
  have hval2 : validate_names (p.allele_dict.map Prod.fst) =
      .ok (validDict (p.allele_dict.map Prod.fst), p.taxid) := by
    rw [validate_names_ok_iff]
    refine ⟨rfl, ?_, ?_⟩
    · rw [hkeys]
      intro he
      exact hK2 (List.map_eq_nil_iff.mp he)
    · intro n hn
      rw [hkeys] at hn
      rw [hK1 n hn]
  -- rebuild the allele dict
  have hfold : (p.allele_dict.foldl
      (fun acc ma =>
        dictInsert (canonicalOf (validDict (p.allele_dict.map Prod.fst)) ma.1)
          (parse_allele_string ma.2) acc) []) = p.alleles := by
    have := foldl_dictInsert_rebuild
      (canonicalOf (validDict (p.allele_dict.map Prod.fst)))
      (fun sset => joinAlleles (sortedAlleles sset))
      parse_allele_string p.alleles [] hK3 (by simp) ?hfix
    · simpa [Profile.allele_dict] using this
    case hfix =>
      intro kv hkv
      constructor
      · have hk : kv.1 ∈ p.alleles.map Prod.fst := List.mem_map.mpr ⟨kv, hkv, rfl⟩
        refine canonicalOf_validDict _ _ _ p.taxid ?_ (hK1 kv.1 hk)
        rw [hkeys]
        exact hk
      · exact parse_join_sorted kv.2 (hV kv hkv).1 (hV kv hkv).2
  -- assemble
  unfold mkProfile
  rw [hval2]
  show Except.ok (⟨p.allele_dict.foldl
      (fun acc ma =>
        dictInsert (canonicalOf (validDict (p.allele_dict.map Prod.fst)) ma.1)
          (parse_allele_string ma.2) acc) [], p.taxid, p.meta⟩ : Profile) = Except.ok p
  rw [hfold]


/-! ## Helper lemmas: scoring -/

theorem scoreVals_shared_le (q r : Profile) (mode : String) (amel : Bool) :
    (scoreVals q r mode amel).2.2 ≤ (scoreVals q r mode amel).1 ∧
      (scoreVals q r mode amel).2.2 ≤ (scoreVals q r mode amel).2.1 := by
  simp only [scoreVals]
  exact ⟨Finset.card_le_card Finset.inter_subset_left,
    Finset.card_le_card Finset.inter_subset_right⟩

theorem score_ok_inv (q r : Profile) (alg mode : String) (amel : Bool) (s : ℚ) (n : ℕ)
    (h : Profile.score q r alg mode amel = .ok (s, n)) :
    n = (scoreVals q r mode amel).2.2 ∧
      (alg = "Tanabe" ∨ alg = "query" ∨ alg = "reference") ∧
      s = (if 0 < n then
            if alg = "Tanabe" then
              (2 * (n : ℚ)) / (((scoreVals q r mode amel).1 : ℚ) +
                ((scoreVals q r mode amel).2.1 : ℚ))
            else if alg = "query" then
              (n : ℚ) / ((scoreVals q r mode amel).1 : ℚ)
            else (n : ℚ) / ((scoreVals q r mode amel).2.1 : ℚ)
          else 0) := by
  simp only [Profile.score] at h
  split at h
  · exact absurd h (by simp)
  · split at h
    · exact absurd h (by simp)
    · next halg _ =>
      have hp : ((if 0 < (scoreVals q r mode amel).2.2 then
          if alg = "Tanabe" then
            (2 * ((scoreVals q r mode amel).2.2 : ℚ)) /
              (((scoreVals q r mode amel).1 : ℚ) + ((scoreVals q r mode amel).2.1 : ℚ))
          else if alg = "query" then
            ((scoreVals q r mode amel).2.2 : ℚ) / ((scoreVals q r mode amel).1 : ℚ)
          else ((scoreVals q r mode amel).2.2 : ℚ) / ((scoreVals q r mode amel).2.1 : ℚ)
        else 0), (scoreVals q r mode amel).2.2) = (s, n) := Except.ok.inj h
      obtain ⟨h1, h2⟩ := Prod.mk.inj hp
      subst h2
      refine ⟨rfl, by tauto, h1.symm⟩

theorem scoreVals_self (p : Profile) (amel : Bool) :
    scoreVals p p "intersect" amel =
      ((p.allelesAt (markers_for_scoring p p "intersect" amel)).card,
       (p.allelesAt (markers_for_scoring p p "intersect" amel)).card,
       (p.allelesAt (markers_for_scoring p p "intersect" amel)).card) := by
  simp [scoreVals, Finset.inter_self]

theorem scoreVals_intersect_swap (A B : Profile) (amel : Bool) :
    scoreVals B A "intersect" amel =
      ((scoreVals A B "intersect" amel).2.1,
       (scoreVals A B "intersect" amel).1,
       (scoreVals A B "intersect" amel).2.2) := by
  have hm : markers_for_scoring B A "intersect" amel =
      markers_for_scoring A B "intersect" amel := by
    simp [markers_for_scoring, Finset.inter_comm]
  simp only [scoreVals, hm]
  rw [Finset.inter_comm (Profile.allelesAt B (markers_for_scoring A B "intersect" amel))]

/-! ## C2, C4, C7: the scoring claims -/

/-- C7: every successful `Profile.score` call returns a score in `[0, 1]`;
when the shared count is `0` the score is exactly `0.0`, and when it is
positive both allele counts (hence every divisor the three algorithms use:
`Q+R`, `Q`, `R`) are positive, so no division by zero occurs. -/
theorem c7_score_bounds (q r : Profile) (alg mode : String) (amel : Bool)
    (s : ℚ) (n : ℕ) (h : Profile.score q r alg mode amel = .ok (s, n)) :
    0 ≤ s ∧ s ≤ 1 ∧ (n = 0 → s = 0) ∧
      (0 < n → 0 < (scoreVals q r mode amel).1 ∧ 0 < (scoreVals q r mode amel).2.1) := by
  obtain ⟨hn, halg, hs⟩ := score_ok_inv q r alg mode amel s n h
  obtain ⟨hSQ, hSR⟩ := scoreVals_shared_le q r mode amel
  by_cases hpos : 0 < n
  · have hQ : 0 < (scoreVals q r mode amel).1 := lt_of_lt_of_le (hn ▸ hpos) hSQ
    have hR : 0 < (scoreVals q r mode amel).2.1 := lt_of_lt_of_le (hn ▸ hpos) hSR
    have hQQ : (0 : ℚ) < ((scoreVals q r mode amel).1 : ℚ) := by exact_mod_cast hQ
    have hRQ : (0 : ℚ) < ((scoreVals q r mode amel).2.1 : ℚ) := by exact_mod_cast hR
    have hnQ : ((n : ℚ)) ≤ ((scoreVals q r mode amel).1 : ℚ) := by
      rw [hn]; exact_mod_cast hSQ
    have hnR : ((n : ℚ)) ≤ ((scoreVals q r mode amel).2.1 : ℚ) := by
      rw [hn]; exact_mod_cast hSR
    have hn0 : (0 : ℚ) ≤ (n : ℚ) := by positivity
    rw [hs, if_pos hpos]
    refine ⟨?_, ?_, fun h0 => absurd h0 (Nat.pos_iff_ne_zero.mp hpos), fun _ => ⟨hQ, hR⟩⟩
    · split
      · positivity
      · split
        · positivity
        · positivity
    · split
      · rw [div_le_one (by positivity)]
        linarith
      · split
        · rw [div_le_one hQQ]
          linarith
        · rw [div_le_one hRQ]
          linarith
  · rw [hs, if_neg hpos]
    exact ⟨le_refl 0, by norm_num, fun _ => rfl, fun hcon => absurd hcon hpos⟩

/-- C2 (amended): self-comparison with the Tanabe algorithm in intersect
mode returns a shared count equal to the number of `(marker, allele)` pairs
of the profile restricted to the evaluated marker set, and a score of
exactly `1.0` whenever that count is positive; when the evaluated marker
set contributes no pairs (the profile has only Amelogenin and `amel` is
off) the score is `0.0`, not `1.0`. -/
theorem c2_self_score (p : Profile) (amel : Bool) (s : ℚ) (n : ℕ)
    (h : Profile.score p p "Tanabe" "intersect" amel = .ok (s, n)) :
    n = (p.allelesAt (markers_for_scoring p p "intersect" amel)).card ∧
      (0 < n → s = 1) ∧ (n = 0 → s = 0) := by
  obtain ⟨hn, -, hs⟩ := score_ok_inv p p "Tanabe" "intersect" amel s n h
  have hself := scoreVals_self p amel
  rw [hself] at hn
  refine ⟨hn, ?_, ?_⟩
  · intro hpos
    rw [hs, if_pos hpos, if_pos rfl]
    have hvv : ((scoreVals p p "intersect" amel).1 : ℚ) = (n : ℚ) := by
      rw [hself, hn]
    have hvv2 : ((scoreVals p p "intersect" amel).2.1 : ℚ) = (n : ℚ) := by
      rw [hself, hn]
    rw [hvv, hvv2]
    have hne : (n : ℚ) ≠ 0 := by
      exact_mod_cast Nat.pos_iff_ne_zero.mp hpos
    field_simp
    ring
  · intro h0
    rw [hs, if_neg (by simp [h0])]

/-- Metadata used by the concrete example profiles. -/
def exMeta : Meta := ⟨"mock", "CL-1", "CVCL_TEST", "ATCC"⟩

/-- The profile built from an Amelogenin-only allele table. -/
def amelProfile : Profile := ⟨[("Amelogenin", {"X", "Y"})], 9606, exMeta⟩

/-- C2 counterexample: `amelProfile` is a genuine constructible profile, yet
its Tanabe intersect self-score with `amel=False` is `0.0`, not `1.0` (the
evaluated marker set is empty, so the shared count is `0`). -/
theorem c2_counterexample :
    mkProfile [("Amelogenin", "X,Y")] exMeta = .ok amelProfile ∧
      Profile.score amelProfile amelProfile "Tanabe" "intersect" false = .ok (0, 0) := by
  constructor <;> decide

/-- C2 witness: a one-marker profile scores `1.0` against itself with one
shared allele pair. -/
theorem c2_witness :
    (1 : ℕ) = (Profile.allelesAt ⟨[("vWA", {"16"})], 9606, exMeta⟩
        (markers_for_scoring ⟨[("vWA", {"16"})], 9606, exMeta⟩
          ⟨[("vWA", {"16"})], 9606, exMeta⟩ "intersect" false)).card ∧
      (0 < (1 : ℕ) → (1 : ℚ) = 1) ∧ ((1 : ℕ) = 0 → (1 : ℚ) = 0) :=
  c2_self_score ⟨[("vWA", {"16"})], 9606, exMeta⟩ false 1 1 (by
    have hv : scoreVals ⟨[("vWA", {"16"})], 9606, exMeta⟩
        ⟨[("vWA", {"16"})], 9606, exMeta⟩ "intersect" false = (1, 1, 1) := by decide
    simp only [Profile.score, hv]
    norm_num)


/-- Single-marker profile used in the asymmetry examples. -/
def pQ1 : Profile := ⟨[("vWA", {"1"})], 9606, ⟨"s", "A", "ACC", "S1"⟩⟩

/-- Two-marker profile used in the asymmetry examples. -/
def pQ2 : Profile := ⟨[("vWA", {"1"}), ("TH01", {"2"})], 9606, ⟨"s", "B", "ACC", "S2"⟩⟩

/-- Profile with two alleles at one marker, used in the asymmetry examples. -/
def pQ3 : Profile := ⟨[("vWA", {"1", "2"})], 9606, ⟨"s", "C", "ACC", "S3"⟩⟩

/-- C4 counterexample: with algorithm Tanabe but mode `"query"`, swapping the
two profiles changes the evaluated marker set and hence the score
(`1.0` versus `2/3`), so `score` is not symmetric for every mode even under
Tanabe.  Both profiles are constructible. -/
theorem c4_counterexample :
    mkProfile [("vWA", "1")] ⟨"s", "A", "ACC", "S1"⟩ = .ok pQ1 ∧
      mkProfile [("vWA", "1"), ("TH01", "2")] ⟨"s", "B", "ACC", "S2"⟩ = .ok pQ2 ∧
      Profile.score pQ1 pQ2 "Tanabe" "query" false ≠
        Profile.score pQ2 pQ1 "Tanabe" "query" false := by
  refine ⟨by decide, by decide, ?_⟩
  have h1 : scoreVals pQ1 pQ2 "query" false = (1, 1, 1) := by decide
  have h2 : scoreVals pQ2 pQ1 "query" false = (2, 1, 1) := by decide
  simp [Profile.score, h1, h2, Prod.ext_iff]
  norm_num

/-- C4 (amended): the Tanabe score is symmetric in its two profile
arguments in the `"intersect"` mode, for every `amel` setting; in the other
modes even Tanabe is not symmetric (see the counterexample), and the
`"query"`/`"reference"` algorithms are not symmetric (swapping the
arguments swaps which divisor is used), witnessed on concrete profiles. -/
theorem c4_symmetry :
    (∀ (A B : Profile) (amel : Bool),
      Profile.score A B "Tanabe" "intersect" amel =
        Profile.score B A "Tanabe" "intersect" amel) ∧
      Profile.score pQ1 pQ3 "query" "intersect" false ≠
        Profile.score pQ3 pQ1 "query" "intersect" false ∧
      Profile.score pQ1 pQ3 "reference" "intersect" false ≠
        Profile.score pQ3 pQ1 "reference" "intersect" false := by
  refine ⟨?_, ?_, ?_⟩
  · intro A B amel
    have hswap := scoreVals_intersect_swap A B amel
    simp [Profile.score, hswap, add_comm]
  · have h1 : scoreVals pQ1 pQ3 "intersect" false = (1, 2, 1) := by decide
    have h2 : scoreVals pQ3 pQ1 "intersect" false = (2, 1, 1) := by decide
    simp [Profile.score, h1, h2, Prod.ext_iff]
  · have h1 : scoreVals pQ1 pQ3 "intersect" false = (1, 2, 1) := by decide
    have h2 : scoreVals pQ3 pQ1 "intersect" false = (2, 1, 1) := by decide
    simp [Profile.score, h1, h2, Prod.ext_iff]

/-! ## C8: persisted-format round trip -/

/-- C8: a database whose profiles all come from `Profile.__init__`
(as every loaded or parsed profile does) reloads from its serialized
payload to an equal database, so a second serialization is byte-identical
to the first: `json.dump` is a deterministic function of the payload list
modelled by `to_json`. -/
theorem c8_round_trip (db : List Profile)
    (h : ∀ p ∈ db, ∃ a m, mkProfile a m = .ok p) :
    from_json (to_json db) = .ok db := by
  induction db with
  | nil => rfl
  | cons p rest ih =>
    obtain ⟨a, m, hp⟩ := h p (List.mem_cons_self p rest)
    have hrt := mkProfile_roundtrip a m p hp
    show from_json ((p.meta, p.allele_dict) :: to_json rest) = .ok (p :: rest)
    have hih := ih (fun q hq => h q (List.mem_cons_of_mem p hq))
    simp only [from_json, hrt, hih]
    rfl

/-- The profile built from a one-marker payload, used by the witnesses. -/
def sampleProfile : Profile :=
  ⟨[("vWA", parse_allele_string "9, 10")], 9606, exMeta⟩

/-- C8 witness: the singleton database round-trips. -/
theorem c8_witness : from_json (to_json [sampleProfile]) = .ok [sampleProfile] :=
  c8_round_trip [sampleProfile]
    (fun p hp => ⟨[("vWA", "9, 10")], exMeta, by
      rw [List.mem_singleton.mp hp]
      decide⟩)

/-! ## C10: profile construction invariants -/

/-- C10: every successfully constructed profile has at least one marker,
every key of its allele dict is a registry-canonical name (a fixed point of
resolution) resolving to the profile's single taxid, and every raw input
name resolves to that same taxid; constructing from an empty alleles
mapping always fails, with the unhandled `KeyError` from `taxids.pop()`
rather than a named validation error. -/
theorem c10_profile_invariants :
    (∀ (alleles : List (String × String)) (meta : Meta) (p : Profile),
      mkProfile alleles meta = .ok p →
        p.alleles ≠ [] ∧
          (∀ m ∈ p.alleles.map Prod.fst,
            standardize_name m = (some m, some p.taxid)) ∧
          (∀ raw ∈ alleles.map Prod.fst,
            (standardize_name raw).2 = some p.taxid)) ∧
      (∀ meta : Meta,
        mkProfile [] meta = .error (.keyError "pop from an empty set")) := by
  constructor
  · intro alleles meta p h
    obtain ⟨hmeta, hval, halle⟩ := mkProfile_ok_inv alleles meta p h
    obtain ⟨-, hnames_ne, hall_t⟩ := (validate_names_ok_iff _ _ _).mp hval
    have halleles_ne : alleles ≠ [] := by
      intro he
      exact hnames_ne (by simp [he])
    refine ⟨?_, ?_, hall_t⟩
    · rw [halle]
      exact foldl_dictInsert_ne_nil _ _ alleles [] (Or.inr halleles_ne)
    · intro x hx
      rw [halle] at hx
      rcases (mem_keys_foldl_profile
          (fun ma => canonicalOf (validDict (alleles.map Prod.fst)) ma.1)
          (fun ma => parse_allele_string ma.2) alleles [] x).mp hx with h0 | ⟨ma, hma, rfl⟩
      · simp at h0
      · have hraw : ma.1 ∈ alleles.map Prod.fst := List.mem_map.mpr ⟨ma, hma, rfl⟩
        have hsnd := hall_t ma.1 hraw
        rcases standardize_name_shape ma.1 with ⟨c, t, hstd⟩ | hstd
        · have ht : t = p.taxid := by
            rw [hstd] at hsnd
            exact Option.some.inj hsnd
          subst ht
          rw [canonicalOf_validDict _ _ _ _ hraw hstd]
          exact standardize_name_idem _ _ _ hstd
        · rw [hstd] at hsnd
          exact absurd hsnd (by simp)
  · intro meta
    unfold mkProfile
    simp only [List.map_nil]
    rw [validate_names_nil]

/-- C10 witness: the invariants instantiated on a concrete constructible
profile. -/
theorem c10_witness :
    sampleProfile.alleles ≠ [] ∧
      (∀ m ∈ sampleProfile.alleles.map Prod.fst,
        standardize_name m = (some m, some sampleProfile.taxid)) ∧
      (∀ raw ∈ ([("vWA", "9, 10")] : List (String × String)).map Prod.fst,
        (standardize_name raw).2 = some sampleProfile.taxid) :=
  c10_profile_invariants.1 [("vWA", "9, 10")] exMeta sampleProfile (by decide)

/-! ## C1: duplicate metadata line codes -/

theorem lookup_isSome_mem {β : Type} (d : List (String × β)) (k : String)
    (h : (d.lookup k).isSome) : k ∈ d.map Prod.fst := by
  induction d with
  | nil => simp at h
  | cons kv rest ih =>
    obtain ⟨k1, v1⟩ := kv
    by_cases hk : k1 = k
    · subst hk
      simp
    · rw [List.lookup_cons,
        show (k == k1) = false from beq_false_of_ne (fun e => hk e.symm)] at h
      exact List.mem_cons_of_mem _ (ih h)

theorem lookup_mem_values {β : Type} (d : List (String × β)) (k : String) (v : β)
    (h : d.lookup k = some v) : v ∈ d.map Prod.snd := by
  induction d with
  | nil => simp at h
  | cons kv rest ih =>
    obtain ⟨k1, v1⟩ := kv
    by_cases hk : k1 = k
    · subst hk
      rw [List.lookup_cons_self] at h
      simp [Option.some.inj h]
    · rw [List.lookup_cons,
        show (k == k1) = false from beq_false_of_ne (fun e => hk e.symm)] at h
      exact List.mem_cons_of_mem _ (ih h)

theorem splitFirstWS_fst (l k v : List Char) (h : splitFirstWS l = some (k, v)) :
    k = l.takeWhile (fun c => ¬ c.isWhitespace) := by
  simp only [splitFirstWS] at h
  split at h
  · exact absurd h (by simp)
  · exact (congrArg Prod.fst (Option.some.inj h)).symm

/-- The raw code parsed from an `ID`/`AC`/`SY` line begins with an
uppercase letter, so it is never one of the attribute-name keys stored in
the meta dict: the duplicate-code assertion can never fire. -/
theorem assert_key_not_meta_key (line : String) (kc v : List Char)
    (hsw : pyStartsWith line "ID" = true ∨ pyStartsWith line "AC" = true ∨
      pyStartsWith line "SY" = true)
    (hsp : splitFirstWS line.toList = some (kc, v)) :
    String.mk kc ∉
      (["identifier", "accession", "synonyms", "taxid", "organism"] : List String) := by
  have hk : kc = line.toList.takeWhile (fun c => ¬ c.isWhitespace) :=
    splitFirstWS_fst _ _ _ hsp
  have hhead : ∃ c rest, line.toList = c :: rest ∧ (c = 'I' ∨ c = 'A' ∨ c = 'S') := by
    rcases hsw with h | h | h
    · rw [pyStartsWith, List.isPrefixOf_iff_prefix] at h
      obtain ⟨t, ht⟩ := h
      exact ⟨'I', 'D' :: t, ht.symm, Or.inl rfl⟩
    · rw [pyStartsWith, List.isPrefixOf_iff_prefix] at h
      obtain ⟨t, ht⟩ := h
      exact ⟨'A', 'C' :: t, ht.symm, Or.inr (Or.inl rfl)⟩
    · rw [pyStartsWith, List.isPrefixOf_iff_prefix] at h
      obtain ⟨t, ht⟩ := h
      exact ⟨'S', 'Y' :: t, ht.symm, Or.inr (Or.inr rfl)⟩
  obtain ⟨c, rest, hline, hc⟩ := hhead
  have hkc : kc = c :: rest.takeWhile (fun c => ¬ c.isWhitespace) := by
    rw [hk, hline, List.takeWhile_cons_of_pos]
    rcases hc with rfl | rfl | rfl <;> decide
  intro hmem
  have hkey : (String.mk kc).toList.head? = some c := by
    rw [show (String.mk kc).toList = kc from rfl, hkc]
    rfl
  simp only [List.mem_cons, List.mem_singleton, List.not_mem_nil, or_false] at hmem
  rcases hmem with he | he | he | he | he <;> rw [he] at hkey <;>
    rcases hc with rfl | rfl | rfl <;> exact absurd hkey (by decide)

theorem parse_meta_no_assert (meta : List (String × MetaVal)) (line : String)
    (hinv : ∀ kv ∈ meta,
      kv.1 ∈ (["identifier", "accession", "synonyms", "taxid", "organism"] : List String))
    (k : String) : parse_meta meta line ≠ .error (.assertionError k) := by
  unfold parse_meta
  split
  next hsw =>
    cases hsp : splitFirstWS line.toList with
    | none => simp
    | some kv =>
      obtain ⟨kc, v⟩ := kv
      simp only []
      split
      next hlk =>
        exfalso
        have hkm : String.mk kc ∈ meta.map Prod.fst :=
          lookup_isSome_mem meta (String.mk kc) hlk
        obtain ⟨kv2, hkv2, he⟩ := List.mem_map.mp hkm
        exact assert_key_not_meta_key line kc v hsw hsp (he ▸ hinv kv2 hkv2)
      next =>
        split <;> simp
  next =>
    split
    · split <;> simp
    · simp

theorem metaAppendOX_keys (m : List (String × MetaVal)) (t : ℤ) (org : String)
    (kv : String × MetaVal) (h : kv ∈ metaAppendOX m t org) :
    kv ∈ m ∨ kv.1 = "taxid" ∨ kv.1 = "organism" := by
  have hm1 : ∀ kv2 : String × MetaVal, kv2 ∈ (match m.lookup "taxid" with
      | some (MetaVal.intList l) => dictInsert "taxid" (MetaVal.intList (l ++ [t])) m
      | _ => m) → kv2 ∈ m ∨ kv2.1 = "taxid" := by
    intro kv2 h2
    split at h2
    · rcases mem_dictInsert_elim _ _ _ _ h2 with rfl | h2
      · exact Or.inr rfl
      · exact Or.inl h2
    · exact Or.inl h2
  simp only [metaAppendOX] at h
  split at h
  · rcases mem_dictInsert_elim _ _ _ _ h with rfl | h
    · exact Or.inr (Or.inr rfl)
    · rcases hm1 kv h with h | h
      · exact Or.inl h
      · exact Or.inr (Or.inl h)
  · rcases hm1 kv h with h | h
    · exact Or.inl h
    · exact Or.inr (Or.inl h)

theorem parse_meta_keys (meta : List (String × MetaVal)) (line : String)
    (meta2 : List (String × MetaVal))
    (hinv : ∀ kv ∈ meta,
      kv.1 ∈ (["identifier", "accession", "synonyms", "taxid", "organism"] : List String))
    (h : parse_meta meta line = .ok meta2) :
    ∀ kv ∈ meta2,
      kv.1 ∈ (["identifier", "accession", "synonyms", "taxid", "organism"] : List String) := by
  unfold parse_meta at h
  split at h
  · cases hsp : splitFirstWS line.toList with
    | none => rw [hsp] at h; exact absurd h (by simp)
    | some kvp =>
      obtain ⟨kc, v⟩ := kvp
      rw [hsp] at h
      simp only [] at h
      split at h
      · exact absurd h (by simp)
      · cases hat : ATTRIBUTES.lookup (String.mk kc) with
        | none => rw [hat] at h; exact absurd h (by simp)
        | some attr =>
          rw [hat] at h
          have hattr : attr ∈ ATTRIBUTES.map Prod.snd :=
            lookup_mem_values _ _ _ hat
          have hattr5 : attr ∈
              (["identifier", "accession", "synonyms", "taxid", "organism"] : List String) := by
            simp only [ATTRIBUTES, List.map_cons, List.map_nil, List.mem_cons,
              List.mem_singleton, List.not_mem_nil, or_false] at hattr
            rcases hattr with rfl | rfl | rfl <;> decide
          have hm2 : meta2 = dictInsert attr (.str (String.mk v)) meta :=
            (Except.ok.inj h).symm
          intro kv hkv
          rw [hm2] at hkv
          rcases mem_dictInsert_elim _ _ _ _ hkv with rfl | hkv
          · exact hattr5
          · exact hinv kv hkv
  · split at h
    · split at h
      · exact absurd h (by simp)
      · next hox =>
        have hm2 : meta2 = metaAppendOX
            (if (meta.lookup "taxid").isSome then meta
             else dictInsert "organism" (.strList [])
               (dictInsert "taxid" (.intList []) meta)) _ _ :=
          (Except.ok.inj h).symm
        intro kv hkv
        rw [hm2] at hkv
        rcases metaAppendOX_keys _ _ _ _ hkv with hin | h1 | h1
        · split at hin
          · exact hinv kv hin
          · rcases mem_dictInsert_elim _ _ _ _ hin with rfl | hin
            · simp
            · rcases mem_dictInsert_elim _ _ _ _ hin with rfl | hin
              · simp
              · exact hinv kv hin
        · simp [h1]
        · simp [h1]
    · have hm2 : meta2 = meta := (Except.ok.inj h).symm
      subst hm2
      exact hinv

/-- C1: the duplicate-code assertion in `CellosaurusEntry.parse_meta` tests
the raw two-letter code (e.g. `"ID"`) for membership in a dict keyed by
attribute names (`"identifier"`, ...), so it can never fire: a record with
two `ID` lines parses successfully and silently keeps the second value, and
no sequence of lines can make the metadata parse raise the
`AssertionError`. -/
theorem c1_duplicate_meta_not_fatal :
    entry_meta ["ID   CL-A", "ID   CL-B"] = .ok [("identifier", MetaVal.str "CL-B")] ∧
      ∀ (lines : List String) (k : String),
        entry_meta lines ≠ .error (.assertionError k) := by
  constructor
  · decide
  · intro lines k
    have hmain : ∀ (meta : List (String × MetaVal)),
        (∀ kv ∈ meta,
          kv.1 ∈ (["identifier", "accession", "synonyms", "taxid", "organism"] : List String)) →
        lines.foldlM parse_meta meta ≠ .error (.assertionError k) := by
      induction lines with
      | nil =>
        intro meta _
        intro hcon
        exact absurd hcon (by simp [List.foldlM, pure, Except.pure])
      | cons line rest ih =>
        intro meta hinv
        rw [List.foldlM_cons]
        cases hpm : parse_meta meta line with
        | error e =>
          have hne : e ≠ .assertionError k := by
            intro he
            exact parse_meta_no_assert meta line hinv k (he ▸ hpm)
          intro hcon
          have hcon2 : (Except.error e : Except ClaspyError (List (String × MetaVal))) =
              Except.error (ClaspyError.assertionError k) := hcon
          exact hne (Except.error.inj hcon2)
        | ok meta2 =>
          exact ih meta2 (parse_meta_keys meta line meta2 hinv hpm)
    exact hmain [] (by simp)

/-! ## C5: ranking order of profile results -/

/-- C5: within a cell-line result (all entries carry the same query sample
name, the documented invariant), the Python comparison used by
`sorted(self, reverse=True)` is exactly the ascending lexicographic order
on `(score, shared_alleles, reference.slug)`, and the "best" entry --- the
head of the descending sort used by `CellLineResult.summary` and
`CellLineResult.full_report` --- is a maximum under that key. -/
theorem c5_result_ordering :
    (∀ a b : ProfileResult, a.sample = b.sample →
      (a.pyLt b ↔ a.rankKey < b.rankKey)) ∧
    (∀ (s : String) (l : List ProfileResult) (b : ProfileResult)
        (rest : List ProfileResult),
      (∀ x ∈ l, x.sample = s) → sortResultsDesc l = b :: rest →
      ∀ x ∈ l, x.rankKey ≤ b.rankKey) := by
  constructor
  · intro a b hs
    rw [pyLt_iff_key, ProfileResult.quadKey, ProfileResult.quadKey,
      Prod.Lex.lt_iff, hs]
    simp [lt_irrefl]
  · intro s l b rest hsame hsort x hx
    have hsorted : List.Sorted prGE (sortResultsDesc l) :=
      List.sorted_insertionSort prGE l
    have hperm : List.Perm (sortResultsDesc l) l := List.perm_insertionSort prGE l
    have hxs : x ∈ b :: rest := by
      rw [← hsort]
      exact hperm.mem_iff.mpr hx
    rcases List.mem_cons.mp hxs with rfl | hxr
    · exact le_refl _
    · have hge : prGE b x := by
        rw [hsort] at hsorted
        exact (List.sorted_cons.mp hsorted).1 x hxr
      have hq : x.quadKey ≤ b.quadKey := by
        rw [prGE, pyLt_iff_key] at hge
        exact not_lt.mp hge
      have hsx : x.sample = s := hsame x hx
      have hsb : b.sample = s := by
        refine hsame b (hperm.mem_iff.mp ?_)
        rw [hsort]
        exact List.mem_cons_self b rest
      rw [ProfileResult.quadKey, ProfileResult.quadKey, Prod.Lex.le_iff,
        hsx, hsb] at hq
      rcases hq with h | h
      · exact absurd h (lt_irrefl s)
      · exact h.2

/-- Concrete results used by the C5 witness. -/
def cw1 : ProfileResult := ⟨"s", 1, 3, pQ1⟩

/-- Concrete results used by the C5 witness. -/
def cw2 : ProfileResult := ⟨"s", 2, 5, pQ2⟩

/-- C5 witness: the ordering equivalence and the best-is-maximum property
instantiated on a concrete two-element cell-line result. -/
theorem c5_witness :
    (cw1.pyLt cw2 ↔ cw1.rankKey < cw2.rankKey) ∧
      (∀ x ∈ [cw1, cw2], x.rankKey ≤ cw2.rankKey) :=
  ⟨c5_result_ordering.1 cw1 cw2 rfl,
    c5_result_ordering.2 "s" [cw1, cw2] cw2 [cw1] (by decide) (by decide)⟩

/-! ## C6: search result iteration -/

theorem iterLoop_eq (ms : ℚ) (mh : ℤ) :
    ∀ (l : List (List ProfileResult)) (n : ℕ),
    iterLoop ms mh n l =
      (if 0 < mh then
        (l.takeWhile (fun c => !decide (top_score c < ms))).take (mh.toNat - n)
       else l.takeWhile (fun c => !decide (top_score c < ms))) := by
  intro l
  induction l with
  | nil =>
    intro n
    simp [iterLoop]
  | cons c rest ih =>
    intro n
    rw [iterLoop]
    by_cases h1 : 0 < mh ∧ mh ≤ (n : ℤ)
    · rw [if_pos h1, if_pos h1.1]
      have hz : mh.toNat - n = 0 := by omega
      rw [hz, List.take_zero]
    · rw [if_neg h1]
      by_cases h2 : top_score c < ms
      · rw [if_pos h2]
        have htw : (c :: rest).takeWhile (fun c => !decide (top_score c < ms)) = [] := by
          rw [List.takeWhile_cons]
          simp [h2]
        rw [htw]
        split <;> simp
      · rw [if_neg h2]
        have htw : (c :: rest).takeWhile (fun c => !decide (top_score c < ms)) =
            c :: rest.takeWhile (fun c => !decide (top_score c < ms)) := by
          rw [List.takeWhile_cons]
          simp [h2]
        rw [htw, ih (n + 1)]
        by_cases hmh : 0 < mh
        · rw [if_pos hmh, if_pos hmh]
          have hn : ¬ mh ≤ (n : ℤ) := fun hc => h1 ⟨hmh, hc⟩
          have hsucc : mh.toNat - n = (mh.toNat - (n + 1)) + 1 := by omega
          rw [hsucc, List.take_succ_cons]
        · rw [if_neg hmh, if_neg hmh]

/-- C6: iterating a search result yields the cell-line groups in descending
`(top_score, top_score_shared_alleles)` order; the iteration is the longest
prefix of the sorted groups whose top scores are not below `minscore`
(stopping permanently, not skipping), additionally truncated to `maxhits`
groups when `maxhits > 0`, and never truncated when `maxhits ≤ 0`. -/
theorem c6_search_iteration (results : List (List ProfileResult)) (ms : ℚ)
    (mh : ℤ) :
    (searchIter results ms mh).Pairwise clrGE ∧
      searchIter results ms mh =
        (if 0 < mh then
          ((ids_by_score results).takeWhile
            (fun c => !decide (top_score c < ms))).take mh.toNat
         else (ids_by_score results).takeWhile
            (fun c => !decide (top_score c < ms))) := by
  have hs : List.Sorted clrGE (ids_by_score results) :=
    List.sorted_insertionSort clrGE results
  have heq := iterLoop_eq ms mh (ids_by_score results) 0
  constructor
  · rw [searchIter, heq]
    split
    · exact List.Pairwise.sublist
        ((List.take_sublist _ _).trans (List.takeWhile_sublist _)) hs
    · exact List.Pairwise.sublist (List.takeWhile_sublist _) hs
  · rw [searchIter, heq, Nat.sub_zero]


/-- C7 witness: the bounds instantiated on a concrete Tanabe comparison
(score `2/3`, one shared allele). -/
theorem c7_witness :
    0 ≤ (2/3 : ℚ) ∧ (2/3 : ℚ) ≤ 1 ∧ ((1 : ℕ) = 0 → (2/3 : ℚ) = 0) ∧
      (0 < (1 : ℕ) → 0 < (scoreVals pQ1 pQ3 "intersect" false).1 ∧
        0 < (scoreVals pQ1 pQ3 "intersect" false).2.1) :=
  c7_score_bounds pQ1 pQ3 "Tanabe" "intersect" false (2/3) 1 (by
    have h1 : scoreVals pQ1 pQ3 "intersect" false = (1, 2, 1) := by decide
    simp [Profile.score, h1]
    norm_num)

/-! ## C9: marker-name validation errors -/

/-- C9 counterexample: on the empty iterable neither error branch applies,
but instead of returning a mapping and a taxid the code raises the
`KeyError` from `taxids.pop()` on an empty set. -/
theorem c9_counterexample :
    validate_names [] = .error (.keyError "pop from an empty set") := by
  decide

/-- C9 (amended): if any name is unresolvable, `validate_names` fails with
the invalid-marker error listing exactly the unresolvable raw names (all
collected, not just the first); if every name resolves but more than one
species is involved, it fails with the mixed-species error naming exactly
the species of the resolved names; and for a nonempty iterable in which
every name resolves to a single species it returns the raw-to-canonical
mapping together with that species' taxid.  (On the empty iterable it
raises `KeyError` instead; see the counterexample.) -/
theorem c9_validate_names :
    (∀ names : List String,
      (∃ n ∈ names, (standardize_name n).1 = none) →
      ∃ bad, validate_names names = .error (.invalidMarkers bad) ∧
        ∀ n, n ∈ bad ↔ n ∈ names ∧ (standardize_name n).1 = none) ∧
    (∀ names : List String,
      (∀ n ∈ names, (standardize_name n).1 ≠ none) →
      (∃ a ∈ names, ∃ b ∈ names, (standardize_name a).2 ≠ (standardize_name b).2) →
      ∃ sp, validate_names names = .error (.mixedSpecies sp) ∧
        ∀ x, x ∈ sp ↔ ∃ n ∈ names, ∃ t, (standardize_name n).2 = some t ∧
          x = speciesOf t) ∧
    (∀ names : List String,
      names ≠ [] →
      (∀ n ∈ names, (standardize_name n).1 ≠ none) →
      (∀ a ∈ names, ∀ b ∈ names, (standardize_name a).2 = (standardize_name b).2) →
      ∃ valid t, validate_names names = .ok (valid, t) ∧
        (∀ n ∈ names, valid.lookup n = some ((standardize_name n).1)) ∧
        (∀ n ∈ names, (standardize_name n).2 = some t)) := by
  refine ⟨?_, ?_, ?_⟩
  · intro names ⟨n0, hn0, hnone⟩
    have hcond : none ∈ (names.map (fun n => (standardize_name n).2)).dedup := by
      rw [List.mem_dedup, List.mem_map]
      exact ⟨n0, hn0, (standardize_fst_none_iff n0).mp hnone⟩
    refine ⟨((validDict names).filter (fun p => p.2 = none)).map Prod.fst, ?_, ?_⟩
    · simp only [validate_names]
      rw [if_pos hcond]
    · intro n
      rw [List.mem_map]
      constructor
      · rintro ⟨p, hp, rfl⟩
        rw [List.mem_filter] at hp
        have hm := (mem_validDict_iff names p.1 p.2).mp hp.1
        refine ⟨hm.1, ?_⟩
        rw [← hm.2]
        exact of_decide_eq_true hp.2
      · rintro ⟨hmem, hnone2⟩
        refine ⟨(n, (standardize_name n).1), ?_, rfl⟩
        rw [List.mem_filter]
        exact ⟨(mem_validDict_iff names n _).mpr ⟨hmem, rfl⟩,
          decide_eq_true hnone2⟩
  · intro names hres ⟨a, ha, b, hb, hab⟩
    have hnone : none ∉ (names.map (fun n => (standardize_name n).2)).dedup := by
      rw [List.mem_dedup, List.mem_map]
      rintro ⟨n, hn, heq⟩
      exact hres n hn ((standardize_fst_none_iff n).mpr heq)
    have hlen : 1 < (names.map (fun n => (standardize_name n).2)).dedup.length := by
      by_contra hle
      push_neg at hle
      have hai : (standardize_name a).2 ∈
          (names.map (fun n => (standardize_name n).2)).dedup := by
        rw [List.mem_dedup]
        exact List.mem_map_of_mem _ ha
      have hbi : (standardize_name b).2 ∈
          (names.map (fun n => (standardize_name n).2)).dedup := by
        rw [List.mem_dedup]
        exact List.mem_map_of_mem _ hb
      rcases hl : (names.map (fun n => (standardize_name n).2)).dedup with _ | ⟨z, zs⟩
      · rw [hl] at hai
        exact absurd hai (List.not_mem_nil _)
      · have hzs : zs = [] := by
          rw [hl] at hle
          simpa using hle
        subst hzs
        rw [hl] at hai hbi
        rw [List.mem_singleton.mp hai, List.mem_singleton.mp hbi] at hab
        exact hab rfl
    refine ⟨sortStrings (((names.map (fun n => (standardize_name n).2)).dedup).filterMap
        (fun o => o.map speciesOf)), ?_, ?_⟩
    · simp only [validate_names]
      rw [if_neg (by simpa using hnone), if_pos hlen]
    · intro x
      rw [sortStrings, List.mem_insertionSort, List.mem_filterMap]
      constructor
      · rintro ⟨o, ho, hmap⟩
        rw [List.mem_dedup, List.mem_map] at ho
        obtain ⟨n, hn, rfl⟩ := ho
        obtain ⟨t, hto, hsp⟩ := Option.map_eq_some'.mp hmap
        exact ⟨n, hn, t, hto, hsp.symm⟩
      · rintro ⟨n, hn, t, ht, rfl⟩
        refine ⟨some t, ?_, rfl⟩
        rw [List.mem_dedup, List.mem_map]
        exact ⟨n, hn, ht⟩
  · intro names hne hres hsame
    obtain ⟨n0, hn0⟩ : ∃ n0, n0 ∈ names := by
      cases names with
      | nil => exact absurd rfl hne
      | cons x xs => exact ⟨x, List.mem_cons_self x xs⟩
    obtain ⟨t, ht⟩ : ∃ t, (standardize_name n0).2 = some t := by
      cases hs : (standardize_name n0).2 with
      | none => exact absurd ((standardize_fst_none_iff n0).mpr hs) (hres n0 hn0)
      | some t => exact ⟨t, rfl⟩
    refine ⟨validDict names, t, ?_, ?_, ?_⟩
    · rw [validate_names_ok_iff]
      exact ⟨rfl, hne, fun n hn => (hsame n hn n0 hn0).trans ht⟩
    · intro n hn
      rw [lookup_validDict, if_pos hn]
    · exact fun n hn => (hsame n hn n0 hn0).trans ht

/-- C9 witness: the three branches instantiated on the concrete marker
lists exercised by the project's own tests. -/
theorem c9_witness :
    (∃ bad, validate_names ["CSF1PO", "Penta G", "D2S1338"] =
        .error (.invalidMarkers bad) ∧
      ∀ n, n ∈ bad ↔ n ∈ ["CSF1PO", "Penta G", "D2S1338"] ∧
        (standardize_name n).1 = none) ∧
    (∃ sp, validate_names ["vWA", "DogPEZ8"] = .error (.mixedSpecies sp) ∧
      ∀ x, x ∈ sp ↔ ∃ n ∈ ["vWA", "DogPEZ8"], ∃ t,
        (standardize_name n).2 = some t ∧ x = speciesOf t) ∧
    (∃ valid t, validate_names ["PENTAD", "AmeLoGenIN", "D21S11"] = .ok (valid, t) ∧
      (∀ n ∈ ["PENTAD", "AmeLoGenIN", "D21S11"],
        valid.lookup n = some ((standardize_name n).1)) ∧
      (∀ n ∈ ["PENTAD", "AmeLoGenIN", "D21S11"],
        (standardize_name n).2 = some t)) :=
  ⟨c9_validate_names.1 ["CSF1PO", "Penta G", "D2S1338"]
    ⟨"Penta G", by decide, by decide⟩,
   c9_validate_names.2.1 ["vWA", "DogPEZ8"] (by decide)
    ⟨"vWA", by decide, "DogPEZ8", by decide, by decide⟩,
   c9_validate_names.2.2 ["PENTAD", "AmeLoGenIN", "D21S11"] (by decide)
    (by decide) (by decide)⟩


/-! ## C3: allele rendering -/

theorem pyLtVal_num (x y : PyVal) (hx : x.isNum = true) (hy : y.isNum = true) :
    pyLtVal x y = .ok (decide (x.val < y.val)) := by
  cases x with
  | intv a =>
    cases y with
    | intv b => simp [pyLtVal, PyVal.val, decide_eq_decide, Int.cast_lt]
    | floatv q => rfl
    | strv t => simp [PyVal.isNum] at hy
  | floatv p =>
    cases y with
    | intv b => rfl
    | floatv q => rfl
    | strv t => simp [PyVal.isNum] at hy
  | strv u => simp [PyVal.isNum] at hx

theorem pyLtVal_ok_same (x y : PyVal) (h : x.isNum = y.isNum) :
    ∃ b, pyLtVal x y = .ok b := by
  cases x <;> cases y <;> first | exact ⟨_, rfl⟩ | simp [PyVal.isNum] at h

theorem pyLtVal_cross (x y : PyVal) (h : ¬ x.isNum = y.isNum) :
    pyLtVal x y =
      .error (.typeError "< not supported between instances of str and int/float") := by
  cases x <;> cases y <;> first | rfl | simp [PyVal.isNum] at h

theorem insertPy_homog (k : Bool) (x : PyVal) (hx : x.isNum = k) :
    ∀ r : List PyVal, (∀ y ∈ r, y.isNum = k) →
    ∃ r', insertPy x r = .ok r' ∧ List.Perm r' (x :: r) ∧
      ∀ y ∈ r', y.isNum = k := by
  intro r
  induction r with
  | nil =>
    intro _
    refine ⟨[x], rfl, List.Perm.refl _, ?_⟩
    intro y hy
    rw [List.mem_singleton.mp hy]
    exact hx
  | cons y ys ih =>
    intro hall
    obtain ⟨b, hb⟩ := pyLtVal_ok_same y x
      ((hall y (List.mem_cons_self y ys)).trans hx.symm)
    obtain ⟨r'', hr'', hperm, hkind⟩ := ih (fun z hz => hall z (List.mem_cons_of_mem y hz))
    cases b with
    | true =>
      refine ⟨y :: r'', ?_, ?_, ?_⟩
      · simp only [insertPy, hb, hr'']
        rfl
      · exact (hperm.cons y).trans (List.Perm.swap x y ys)
      · intro z hz
        rcases List.mem_cons.mp hz with rfl | hz
        · exact hall z (List.mem_cons_self z ys)
        · exact hkind z hz
    | false =>
      refine ⟨x :: y :: ys, ?_, List.Perm.refl _, ?_⟩
      · simp only [insertPy, hb]
        rfl
      · intro z hz
        rcases List.mem_cons.mp hz with rfl | hz
        · exact hx
        · exact hall z hz

theorem sortPy_homog (k : Bool) :
    ∀ l : List PyVal, (∀ y ∈ l, y.isNum = k) →
    ∃ r, sortPy l = .ok r ∧ List.Perm r l ∧ ∀ y ∈ r, y.isNum = k := by
  intro l
  induction l with
  | nil => exact fun _ => ⟨[], rfl, List.Perm.refl _, by simp⟩
  | cons x xs ih =>
    intro hall
    obtain ⟨r, hr, hperm, hkind⟩ := ih (fun z hz => hall z (List.mem_cons_of_mem x hz))
    obtain ⟨r', hr', hperm', hkind'⟩ :=
      insertPy_homog k x (hall x (List.mem_cons_self x xs)) r hkind
    refine ⟨r', ?_, hperm'.trans (hperm.cons x), hkind'⟩
    simp only [sortPy, hr]
    exact hr'

theorem insertPy_num_sorted (x : PyVal) (hx : x.isNum = true) :
    ∀ r : List PyVal, (∀ y ∈ r, y.isNum = true) →
    r.Pairwise (fun a b => a.val ≤ b.val) →
    ∃ r', insertPy x r = .ok r' ∧ List.Perm r' (x :: r) ∧
      (∀ y ∈ r', y.isNum = true) ∧ r'.Pairwise (fun a b => a.val ≤ b.val) := by
  intro r
  induction r with
  | nil =>
    intro _ _
    refine ⟨[x], rfl, List.Perm.refl _, ?_, List.pairwise_singleton _ _⟩
    intro y hy
    rw [List.mem_singleton.mp hy]
    exact hx
  | cons y ys ih =>
    intro hall hsorted
    have hy : y.isNum = true := hall y (List.mem_cons_self y ys)
    have hlt := pyLtVal_num y x hy hx
    rw [List.pairwise_cons] at hsorted
    by_cases hd : y.val < x.val
    · obtain ⟨r'', hr'', hperm, hkind, hpair⟩ :=
        ih (fun z hz => hall z (List.mem_cons_of_mem y hz)) hsorted.2
      refine ⟨y :: r'', ?_, ?_, ?_, ?_⟩
      · simp only [insertPy, hlt, decide_eq_true hd, hr'']
        rfl
      · exact (hperm.cons y).trans (List.Perm.swap x y ys)
      · intro z hz
        rcases List.mem_cons.mp hz with rfl | hz
        · exact hy
        · exact hkind z hz
      · rw [List.pairwise_cons]
        refine ⟨?_, hpair⟩
        intro z hz
        rcases List.mem_cons.mp (hperm.mem_iff.mp hz) with rfl | hz2
        · exact le_of_lt hd
        · exact hsorted.1 z hz2
    · refine ⟨x :: y :: ys, ?_, List.Perm.refl _, ?_, ?_⟩
      · simp only [insertPy, hlt, decide_eq_false hd]
        rfl
      · intro z hz
        rcases List.mem_cons.mp hz with rfl | hz
        · exact hx
        · exact hall z hz
      · rw [List.pairwise_cons]
        refine ⟨?_, List.pairwise_cons.mpr hsorted⟩
        intro z hz
        rcases List.mem_cons.mp hz with rfl | hz2
        · exact not_lt.mp hd
        · exact le_trans (not_lt.mp hd) (hsorted.1 z hz2)

theorem sortPy_num_sorted :
    ∀ l : List PyVal, (∀ y ∈ l, y.isNum = true) →
    ∃ r, sortPy l = .ok r ∧ List.Perm r l ∧ (∀ y ∈ r, y.isNum = true) ∧
      r.Pairwise (fun a b => a.val ≤ b.val) := by
  intro l
  induction l with
  | nil => exact fun _ => ⟨[], rfl, List.Perm.refl _, by simp, List.Pairwise.nil⟩
  | cons x xs ih =>
    intro hall
    obtain ⟨r, hr, hperm, hkind, hpair⟩ :=
      ih (fun z hz => hall z (List.mem_cons_of_mem x hz))
    obtain ⟨r', hr', hperm', hkind', hpair'⟩ :=
      insertPy_num_sorted x (hall x (List.mem_cons_self x xs)) r hkind hpair
    refine ⟨r', ?_, hperm'.trans (hperm.cons x), hkind', hpair'⟩
    simp only [sortPy, hr]
    exact hr'

theorem sortPy_mixed :
    ∀ l : List PyVal, (∃ x ∈ l, x.isNum = true) → (∃ y ∈ l, y.isNum = false) →
    sortPy l =
      .error (.typeError "< not supported between instances of str and int/float") := by
  intro l
  induction l with
  | nil => rintro ⟨x, hx, -⟩ _; exact absurd hx (List.not_mem_nil x)
  | cons z zs ih =>
    rintro ⟨x, hx, hxnum⟩ ⟨y, hy, hystr⟩
    by_cases hboth : (∃ x ∈ zs, PyVal.isNum x = true) ∧ ∃ y ∈ zs, PyVal.isNum y = false
    · have herr := ih hboth.1 hboth.2
      simp only [sortPy, herr]
      rfl
    · push_neg at hboth
      by_cases hnum : ∃ x ∈ zs, PyVal.isNum x = true
      · -- all of zs are numeric, so z must be the string value
        have hallnum : ∀ w ∈ zs, w.isNum = true := by
          intro w hw
          cases hc : w.isNum with
          | true => rfl
          | false => exact absurd hc (hboth hnum w hw)
        have hz : z.isNum = false := by
          rcases List.mem_cons.mp hy with rfl | hy2
          · exact hystr
          · exact absurd (hallnum y hy2) (by rw [hystr]; simp)
        have hzs_ne : zs ≠ [] := by
          obtain ⟨x2, hx2, _⟩ := hnum
          intro he
          rw [he] at hx2
          exact absurd hx2 (List.not_mem_nil x2)
        obtain ⟨r, hr, hperm, hkind⟩ := sortPy_homog true zs hallnum
        have hr_ne : r ≠ [] := by
          intro he
          rw [he] at hperm
          exact hzs_ne hperm.symm.eq_nil
        obtain ⟨w, ws, hw⟩ := List.exists_cons_of_ne_nil hr_ne
        have hcross := pyLtVal_cross w z (by
          rw [hkind w (hw ▸ List.mem_cons_self w ws), hz]
          simp)
        rw [hw] at hr
        have hstep : sortPy (z :: zs) = insertPy z (w :: ws) := by
          simp only [sortPy, hr]
          rfl
        rw [hstep]
        simp only [insertPy, hcross]
        rfl
      · -- no numeric value in zs, so z is the numeric one and some string is in zs
        have hallstr : ∀ w ∈ zs, w.isNum = false := by
          intro w hw
          cases hc : w.isNum with
          | true => exact absurd ⟨w, hw, hc⟩ hnum
          | false => rfl
        have hz : z.isNum = true := by
          rcases List.mem_cons.mp hx with rfl | hx2
          · exact hxnum
          · exact absurd (hallstr x hx2) (by rw [hxnum]; simp)
        have hzs_ne : zs ≠ [] := by
          rcases List.mem_cons.mp hy with rfl | hy2
          · rw [hz] at hystr
            exact absurd hystr (by simp)
          · intro he
            rw [he] at hy2
            exact absurd hy2 (List.not_mem_nil y)
        obtain ⟨r, hr, hperm, hkind⟩ := sortPy_homog false zs hallstr
        have hr_ne : r ≠ [] := by
          intro he
          rw [he] at hperm
          exact hzs_ne hperm.symm.eq_nil
        obtain ⟨w, ws, hw⟩ := List.exists_cons_of_ne_nil hr_ne
        have hcross := pyLtVal_cross w z (by
          rw [hkind w (hw ▸ List.mem_cons_self w ws), hz]
          simp)
        rw [hw] at hr
        have hstep : sortPy (z :: zs) = insertPy z (w :: ws) := by
          simp only [sortPy, hr]
          rfl
        rw [hstep]
        simp only [insertPy, hcross]
        rfl

theorem mapM_transform_ok :
    ∀ L : List String, (∀ t ∈ L, ∃ v, allele_transform t = .ok v) →
    ∃ toks, L.mapM allele_transform = .ok toks ∧
      (∀ v ∈ toks, ∃ t ∈ L, allele_transform t = .ok v) ∧
      (∀ t ∈ L, ∃ v ∈ toks, allele_transform t = .ok v) := by
  intro L
  induction L with
  | nil =>
    intro _
    exact ⟨[], rfl, by simp, by simp⟩
  | cons t ts ih =>
    intro hall
    obtain ⟨v, hv⟩ := hall t (List.mem_cons_self t ts)
    obtain ⟨toks, htoks, hmem1, hmem2⟩ :=
      ih (fun u hu => hall u (List.mem_cons_of_mem t hu))
    refine ⟨v :: toks, ?_, ?_, ?_⟩
    · rw [List.mapM_cons, hv, htoks]
      rfl
    · intro w hw
      rcases List.mem_cons.mp hw with rfl | hw
      · exact ⟨t, List.mem_cons_self t ts, hv⟩
      · obtain ⟨u, hu, hu2⟩ := hmem1 w hw
        exact ⟨u, List.mem_cons_of_mem t hu, hu2⟩
    · intro u hu
      rcases List.mem_cons.mp hu with rfl | hu
      · exact ⟨v, List.mem_cons_self v toks, hv⟩
      · obtain ⟨w, hw, hw2⟩ := hmem2 u hu
        exact ⟨w, List.mem_cons_of_mem v hw, hw2⟩

/-- C3 (amended): `allele_repr` renders a set of numeric tokens as the
comma-join of their rendered forms in ascending numeric order; sets of the
sex-marker letters render sorted (`X` before `Y`); but a set mixing numeric
tokens with `X`/`Y` makes Python's `sorted` compare an `int`/`float` with a
`str` and raise `TypeError`, so rendering fails instead of placing the
letters after the numbers. -/
theorem c3_allele_repr :
    (∀ s : Finset String,
      (∀ t ∈ s, (allele_transform t).map PyVal.isNum = .ok true) →
      ∃ toks l, (sortedAlleles s).mapM allele_transform = .ok toks ∧
        sortPy toks = .ok l ∧ List.Perm l toks ∧
        l.Pairwise (fun a b => a.val ≤ b.val) ∧
        allele_repr s = .ok (joinAlleles (l.map pyStr))) ∧
    (allele_repr {"X"} = .ok "X" ∧ allele_repr {"Y"} = .ok "Y" ∧
      allele_repr {"X", "Y"} = .ok "X,Y") ∧
    (∀ s : Finset String,
      (∀ t ∈ s, (allele_transform t).isOk = true) →
      (∃ a ∈ s, (allele_transform a).map PyVal.isNum = .ok true) →
      (∃ b ∈ s, (allele_transform b).map PyVal.isNum = .ok false) →
      allele_repr s =
        .error (.typeError "< not supported between instances of str and int/float")) := by
  refine ⟨?_, ⟨by decide, by decide, by decide⟩, ?_⟩
  · intro s hnum
    have hok : ∀ t ∈ sortedAlleles s, ∃ v, allele_transform t = .ok v := by
      intro t ht
      have h2 := hnum t ((mem_sortedAlleles s t).mp ht)
      cases hc : allele_transform t with
      | error e => rw [hc] at h2; exact absurd h2 (by simp [Except.map])
      | ok v => exact ⟨v, rfl⟩
    obtain ⟨toks, htoks, hmem1, -⟩ := mapM_transform_ok (sortedAlleles s) hok
    have htoknum : ∀ v ∈ toks, v.isNum = true := by
      intro v hv
      obtain ⟨t, ht, htv⟩ := hmem1 v hv
      have h2 := hnum t ((mem_sortedAlleles s t).mp ht)
      rw [htv] at h2
      exact Except.ok.inj h2
    obtain ⟨r, hsorted, hperm, -, hpair⟩ := sortPy_num_sorted toks htoknum
    refine ⟨toks, r, htoks, hsorted, hperm, hpair, ?_⟩
    have h1 : allele_repr s =
        Except.bind (sortPy toks) (fun l => Except.ok (joinAlleles (l.map pyStr))) := by
      simp only [allele_repr, htoks]
      rfl
    rw [h1, hsorted]
    rfl
  · intro s hall ⟨a, ha, hanum⟩ ⟨b, hb, hbstr⟩
    have hok : ∀ t ∈ sortedAlleles s, ∃ v, allele_transform t = .ok v := by
      intro t ht
      have h2 := hall t ((mem_sortedAlleles s t).mp ht)
      cases hc : allele_transform t with
      | error e => rw [hc] at h2; exact absurd h2 (by simp [Except.isOk, Except.toBool])
      | ok v => exact ⟨v, rfl⟩
    obtain ⟨toks, htoks, -, hmem2⟩ := mapM_transform_ok (sortedAlleles s) hok
    obtain ⟨va, hva, hva2⟩ := hmem2 a ((mem_sortedAlleles s a).mpr ha)
    obtain ⟨vb, hvb, hvb2⟩ := hmem2 b ((mem_sortedAlleles s b).mpr hb)
    have hva3 : va.isNum = true := by
      rw [hva2] at hanum
      exact Except.ok.inj hanum
    have hvb3 : vb.isNum = false := by
      rw [hvb2] at hbstr
      exact Except.ok.inj hbstr
    have herr := sortPy_mixed toks ⟨va, hva, hva3⟩ ⟨vb, hvb, hvb3⟩
    have h1 : allele_repr s =
        Except.bind (sortPy toks) (fun l => Except.ok (joinAlleles (l.map pyStr))) := by
      simp only [allele_repr, htoks]
      rfl
    rw [h1, herr]
    rfl

/-- C3 counterexample: a genuine allele set mixing a numeric token with the
letter `X` makes rendering raise `TypeError` instead of succeeding. -/
theorem c3_counterexample :
    allele_repr {"11", "X"} =
      .error (.typeError "< not supported between instances of str and int/float") := by
  decide

/-- C3 witness: the numeric branch instantiated on the set `{"13", "7"}`. -/
theorem c3_witness :
    ∃ toks l, (sortedAlleles {"13", "7"}).mapM allele_transform = .ok toks ∧
      sortPy toks = .ok l ∧ List.Perm l toks ∧
      l.Pairwise (fun a b => a.val ≤ b.val) ∧
      allele_repr {"13", "7"} = .ok (joinAlleles (l.map pyStr)) :=
  c3_allele_repr.1 {"13", "7"} (by decide)


end Claspy
